import Mathlib

/- Verification development for the algorithmic core of the mec_notebooks
   repository: the Pivoter/MatrixTableau simplex machinery and cutting-stock
   column generation (lp07.1_column-generation.ipynb, ot05_matching-estimation.ipynb),
   the Lemke-Howson complementary pivoting loop and Nash-equilibrium check
   (gt03_nash.ipynb), and the IPFP entropic optimal-transport solver family
   (matrixIPFP, logdomainIPFP, logdomainIPFP_with_LSE_trick).

   Numeric code is embedded over exact arithmetic: generic linearly ordered
   fields where the source is pure arithmetic (so witnesses can be evaluated
   on rationals), and the real numbers where the source uses exp/log. -/

namespace Mec

/-- Scan of the ratios `x b / z b` over the index list, keeping the first
index attaining the minimum ratio among indices with `z b > 0`.  This models
the python idiom `thedic = {b: x_b[b]/z_b[b] for b in range(nbb) if z_b[b]>0};
min(thedic, key=thedic.get)` used by `Pivoter.determine_departing`
(lp07.1_column-generation.ipynb) and by the cutting-stock column-generation
loop (ot05_matching-estimation.ipynb): python `min` keeps the first minimal
key in insertion order, so the accumulator is replaced only on a strict
decrease. -/
def ratioUpd {α : Type} [LinearOrderedField α] (z x : ℕ → α) (b : ℕ)
    (acc : Option (ℕ × α)) : Option (ℕ × α) :=
  if 0 < z b then
    match acc with
    | none => some (b, x b / z b)
    | some p => if x b / z b < p.2 then some (b, x b / z b) else some p
  else acc

/-- The fold over the index list that drives `ratioUpd`. -/
def ratioFold {α : Type} [LinearOrderedField α] (z x : ℕ → α) :
    List ℕ → Option (ℕ × α) → Option (ℕ × α)
  | [], acc => acc
  | b :: rest, acc => ratioFold z x rest (ratioUpd z x b acc)

/-- The failure mode of `Pivoter.determine_departing`: when no coordinate of
the resolved direction `z` is positive, the dictionary comprehension is empty
and python `min` raises the builtin `ValueError` with message
`min() arg is an empty sequence`.  The source defines no other error for this
code path (in particular no `UnboundedError` type exists anywhere in the
notebooks), so the embedding has this single generic constructor. -/
inductive PivotFailure
  | emptyMin
  deriving DecidableEq

/-- `Pivoter.determine_departing` (lp07.1_column-generation.ipynb): given the
resolved direction `z = B^-1 Nent` and the basic solution `x_b`, form the
ratios `x_b[b]/z_b[b]` over `b in range(nbb)` with `z_b[b] > 0` and return the
argmin together with the minimal ratio `epsilon`; on an empty candidate set
the call fails with the generic ValueError from `min()`. -/
def determine_departing {α : Type} [LinearOrderedField α] (z x : ℕ → α) (nbb : ℕ) :
    Except PivotFailure (ℕ × α) :=
  match ratioFold z x (List.range nbb) none with
  | none => Except.error PivotFailure.emptyMin
  | some p => Except.ok p

/-- The basic-solution update of `Pivoter.update` (lp07.1_column-generation.ipynb)
and of the cutting-stock loop (ot05_matching-estimation.ipynb):
`x_b = x_b - epsilon * z_b` followed by `x_b[bdep] = epsilon`. -/
def pivoter_update_x {α : Type} [LinearOrderedField α] (x z : ℕ → α) (bdep : ℕ)
    (eps : α) : ℕ → α :=
  fun b => if b = bdep then eps else x b - eps * z b

/-- The basis-matrix update of `Pivoter.update`: `B_i_b[:,bdep] = Nent_i`,
replacing the departing column with the entering column. -/
def pivoter_update_B {α : Type} [LinearOrderedField α] (B : ℕ → ℕ → α)
    (Nent : ℕ → α) (bdep : ℕ) : ℕ → ℕ → α :=
  fun i j => if j = bdep then Nent i else B i j

/-- First-maximum scan of `f` over `0..b`, returning the first argmax and the
maximum value.  Models python `max(thedic, key=thedic.get)` over a dict with
keys inserted in increasing order (python `max` keeps the first maximal key,
so the accumulator is replaced only on a strict increase). -/
def argmaxScan {α : Type} [LinearOrderedField α] (f : ℕ → α) : ℕ → ℕ × α
  | 0 => (0, f 0)
  | b + 1 =>
      if (argmaxScan f b).2 < f (b + 1) then (b + 1, f (b + 1)) else argmaxScan f b

/-- The dynamic-programming tables of `knapsack` (ot05_matching-estimation.ipynb),
as a recursion on the item index: `(knapF w k i v).1` is the table entry
`F[i][v]` and `(knapF w k i v).2` is `A[i][v]`.  Row 0 is
`A[0,v] = v // w[0]`, `F[0,v] = (v // w[0]) * max(k[0], 0)`; row `i+1` takes
the first argmax of `a -> k[i+1]*a + F[i, v - a*w[i+1]]` over
`a in range(v // w[i+1] + 1)`. -/
def knapF {α : Type} [LinearOrderedField α] (w : ℕ → ℕ) (k : ℕ → α) :
    ℕ → ℕ → α × ℕ
  | 0, v => (((v / w 0 : ℕ) : α) * max (k 0) 0, v / w 0)
  | i + 1, v =>
      let p := argmaxScan (fun a => k (i + 1) * (a : α) + (knapF w k i (v - a * w (i + 1))).1)
        (v / w (i + 1))
      (p.2, p.1)

/-- The backtracking phase of `knapsack`: starting from row `i` and capacity
`v`, read off `a_i[i] = A[i,v]` and recurse on row `i-1` with capacity
`v - A[i,v]*w[i]`.  Entries above `i` are 0. -/
def knapBack {α : Type} [LinearOrderedField α] (w : ℕ → ℕ) (k : ℕ → α) :
    ℕ → ℕ → ℕ → ℕ
  | 0, v => fun j => if j = 0 then (knapF w k 0 v).2 else 0
  | i + 1, v =>
      fun j =>
        if j = i + 1 then (knapF w k (i + 1) v).2
        else knapBack w k i (v - (knapF w k (i + 1) v).2 * w (i + 1)) j

/-- `knapsack(k_i, W)` from ot05_matching-estimation.ipynb: fill the DP table
for `nbi = len(k_i)` item types, then backtrack from `F[nbi-1, W]` to recover
the chosen multiplicity vector `a_i`. -/
def knapsack {α : Type} [LinearOrderedField α] (w : ℕ → ℕ) (k : ℕ → α)
    (nbi W : ℕ) : ℕ → ℕ :=
  knapBack w k (nbi - 1) W

/-- The fixed cutting-stock item widths `w_i` of ot05_matching-estimation.ipynb
(entries beyond the 13 listed widths are never read by `knapsack`, since
`nbi = len(k_i) <= 13` there). -/
def wCS : ℕ → ℕ := fun i =>
  [1380, 1520, 1560, 1710, 1820, 1880, 1930, 2000, 2050, 2100, 2140, 2150, 2200].getD i 0

/-- The complement map of `Bimatrix_game_lemke_howson_solve` (gt03_nash.ipynb):
with `N = nbi + nbj` the variables are `w = (r,s)` at indices `0..N-1` and
`z = (x,y)` at indices `N..2N-1`, and
`complements = list(len(zks)+np.arange(len(zks))) + list(np.arange(len(zks)))`,
i.e. `k + N` for `k < N` and `k - N` otherwise. -/
def lhCompl (N k : ℕ) : ℕ :=
  if k < N then k + N else k - N

/-- The complementary pair containing variable `k`: pair `p < N` consists of
the slack `w_p` (index `p`) and the structural `z_p` (index `p + N`). -/
def lhPair (N k : ℕ) : ℕ :=
  if k < N then k else k - N

/-- The loop-exit test of `Bimatrix_game_lemke_howson_solve`, evaluated on the
basis right after `tab.update(kent, kdep)`:
`(complements[kent] not in tab.k_b) and (complements[kdep] in tab.k_b)`. -/
def lhExitTest (N : ℕ) (basis : Finset ℕ) (kent kdep : ℕ) : Prop :=
  lhCompl N kent ∉ basis ∧ lhCompl N kdep ∈ basis

/-- A basis is fully complementary when for every complementary pair
`(z_k, w_k)` exactly one of the two variables is basic. -/
def lhFullyComp (N : ℕ) (basis : Finset ℕ) : Prop :=
  ∀ p < N, (p ∈ basis ∧ p + N ∉ basis) ∨ (p ∉ basis ∧ p + N ∈ basis)

/-- The states reachable by the Lemke-Howson pivot loop of
`Bimatrix_game_lemke_howson_solve`, recorded right after each
`tab.update(kent, kdep)` as (current basis, variable that just entered,
variable that just departed).  The loop starts from the all-slack basis
`{0..N-1}` with `kent = len(wks) = N` (z_1 enters); after a failed exit test
the next entering variable is `complements[kdep]`.  The numeric ratio test of
`mec.lp.Tableau.determine_departing` (not part of the repository sources) is
over-approximated: any currently basic variable may depart, so every state of
the concrete loop is reachable here. -/
inductive LHReach (N : ℕ) : Finset ℕ → ℕ → ℕ → Prop
  | base (kdep : ℕ) (h : kdep < N) :
      LHReach N (insert N ((Finset.range N).erase kdep)) N kdep
  | step (basis : Finset ℕ) (kent kdep kdep' : ℕ)
      (hR : LHReach N basis kent kdep)
      (hno : ¬ lhExitTest N basis kent kdep)
      (hdep : kdep' ∈ basis) :
      LHReach N (insert (lhCompl N kdep) (basis.erase kdep')) (lhCompl N kdep) kdep'

/-- The almost-complementary shape of the intermediate Lemke-Howson bases:
pair 0 (the pair of the initial entering variable `z_1`) is doubled, the pair
of the variable that just departed is empty, and every other pair has exactly
one basic member. -/
def lhAC (N : ℕ) (basis : Finset ℕ) (kdep : ℕ) : Prop :=
  0 ∈ basis ∧ N ∈ basis ∧ lhPair N kdep ≠ 0 ∧
  lhPair N kdep ∉ basis ∧ lhPair N kdep + N ∉ basis ∧
  ∀ p < N, p ≠ 0 → p ≠ lhPair N kdep →
    (p ∈ basis ∧ p + N ∉ basis) ∨ (p ∉ basis ∧ p + N ∈ basis)

/-- The loop invariant of the Lemke-Howson pivot loop, attached to the state
right after an update: the entering variable is basic, the departing one is
not, indices are in range, and the basis is either fully complementary or
almost complementary in the sense of `lhAC`. -/
def lhInv (N : ℕ) (basis : Finset ℕ) (kent kdep : ℕ) : Prop :=
  kent ∈ basis ∧ kdep ∉ basis ∧ kent < 2 * N ∧ kdep < 2 * N ∧
  basis ⊆ Finset.range (2 * N) ∧
  (lhFullyComp N basis ∨ lhAC N basis kdep)

/-- Row-player payoff of pure strategy `i` against the mixed strategy `q`:
`np.eye(nbi)[i] @ A_i_j @ q_j`. -/
def rowPure {I J : Type} [Fintype J] {α : Type} [LinearOrderedField α]
    (A : I → J → α) (q : J → α) (i : I) : α :=
  ∑ j, A i j * q j

/-- Mixed-vs-mixed payoff `p_i @ M_i_j @ q_j`. -/
def mixedPayoff {I J : Type} [Fintype I] [Fintype J] {α : Type}
    [LinearOrderedField α] (p : I → α) (M : I → J → α) (q : J → α) : α :=
  ∑ i, ∑ j, p i * M i j * q j

/-- Column-player payoff of pure strategy `j` against the mixed strategy `p`:
`p_i @ B_i_j @ np.eye(nbj)[j]`. -/
def colPure {I J : Type} [Fintype I] {α : Type} [LinearOrderedField α]
    (B : I → J → α) (p : I → α) (j : J) : α :=
  ∑ i, p i * B i j

/-- `Bimatrix_game_is_NashEq` (gt03_nash.ipynb): returns `False` as soon as a
pure strategy of either player beats the candidate mixed pair by more than
`tol`, else `True`. -/
def is_NashEq {I J : Type} [Fintype I] [Fintype J] {α : Type}
    [LinearOrderedField α] (A B : I → J → α) (p : I → α) (q : J → α)
    (tol : α) : Bool :=
  decide ((∀ i, ¬ (mixedPayoff p A q + tol < rowPure A q i)) ∧
    (∀ j, ¬ (mixedPayoff p B q + tol < colPure B p j)))

/-- The least payoff entry `np.min(M)`. -/
def matMin {I J : Type} [Fintype I] [Fintype J] [Nonempty I] [Nonempty J]
    {α : Type} [LinearOrderedField α] (M : I → J → α) : α :=
  Finset.univ.inf' Finset.univ_nonempty (fun x : I × J => M x.1 x.2)

/-- The positivity shift of `Bimatrix_game_lemke_howson_solve`:
`A_i_j = self.A_i_j - np.min(self.A_i_j) + 1`. -/
def lhShift {I J : Type} [Fintype I] [Fintype J] [Nonempty I] [Nonempty J]
    {α : Type} [LinearOrderedField α] (M : I → J → α) : I → J → α :=
  fun i j => M i j - matMin M + 1

/-- Modelled from the spec: the terminal state of the Lemke-Howson loop.
`mec.lp.Tableau` (imported by gt03_nash.ipynb) is not part of the repository
sources, so the tableau contents at exit are modelled from the specification:
the loop "must terminate in a fully complementary basis" of the LCP built
from the shifted payoff matrices `C = [[0, A'],[B'^T, 0]]`, `q = 1`, whose
basic solution is feasible, and "Output recovery: let (x,y) be the resulting
values of structural variables".  So a terminal state is a nonnegative pair
`(x, y)` of structural values whose slacks `r = 1 - A'y`, `s = 1 - B'^T x`
are nonnegative, with every complementary product zero, and which is not the
trivial all-slack solution. -/
def LHTerminal {I J : Type} [Fintype I] [Fintype J] [Nonempty I] [Nonempty J]
    {α : Type} [LinearOrderedField α] (A B : I → J → α) (x : I → α)
    (y : J → α) : Prop :=
  (∀ i, 0 ≤ x i) ∧ (∀ j, 0 ≤ y j) ∧
  (∀ i, 0 ≤ 1 - ∑ j, lhShift A i j * y j) ∧
  (∀ j, 0 ≤ 1 - ∑ i, lhShift B i j * x i) ∧
  (∀ i, x i * (1 - ∑ j, lhShift A i j * y j) = 0) ∧
  (∀ j, y j * (1 - ∑ i, lhShift B i j * x i) = 0) ∧
  (x ≠ 0 ∨ y ≠ 0)

/-- Output recovery of `Bimatrix_game_lemke_howson_solve`:
`p_i = x_i * beta` with `beta = 1 / x_i.sum()`. -/
def lhMixed {I : Type} [Fintype I] {α : Type} [LinearOrderedField α]
    (x : I → α) : I → α :=
  fun i => x i * (1 / ∑ i', x i')

/-- Loop state of `matrixIPFP` (the IPFP implementation notebook): the scaling
vectors `A_x`, `B_y`, the current residual `error` and the iteration count
`ite`.  Before the first iteration `A_x` is not yet assigned in the source;
the initial state carries the junk value 0 there (the loop body always runs
at least once, since `error` starts at `tol + 1`). -/
structure MIPFPState (X Y α : Type) where
  A : X → α
  B : Y → α
  error : α
  ite : ℕ

/-- One body execution of the `matrixIPFP` while-loop:
`A_x = n_x / (K_x_y @ B_y)`; `KA_y = A_x.T @ K_x_y`;
`error = (abs(KA_y * B_y / m_y) - 1).max()` (note: the old `B_y`, and the
subtraction of 1 happens outside the absolute value); `B_y = m_y / KA_y`;
`ite = ite + 1`. -/
def mipfpStep {X Y α : Type} [Fintype X] [Fintype Y] [Nonempty Y]
    [LinearOrderedField α] (K : X → Y → α) (n : X → α) (m : Y → α)
    (s : MIPFPState X Y α) : MIPFPState X Y α :=
  let A : X → α := fun x => n x / ∑ y, K x y * s.B y
  let KA : Y → α := fun y => ∑ x, A x * K x y
  ⟨A, fun y => m y / KA y,
    Finset.univ.sup' Finset.univ_nonempty (fun y => |KA y * s.B y / m y| - 1),
    s.ite + 1⟩

/-- The `matrixIPFP` while-loop `while error > tol and ite < maxite`, run with
explicit fuel; fuel `maxite + 1` is enough for the guard to fail before the
fuel does, since `ite` increases by one per step. -/
def mipfpLoop {X Y α : Type} [Fintype X] [Fintype Y] [Nonempty Y]
    [LinearOrderedField α] (K : X → Y → α) (n : X → α) (m : Y → α)
    (tol : α) (maxite : ℕ) : ℕ → MIPFPState X Y α → MIPFPState X Y α
  | 0, s => s
  | fuel + 1, s =>
      if tol < s.error ∧ s.ite < maxite then
        mipfpLoop K n m tol maxite fuel (mipfpStep K n m s)
      else s

/-- The outputs of an IPFP solver call that the verified claims talk about:
the coupling `mu_x_y`, the dual potentials, the final loop residual and the
iteration count. -/
structure IPFPResult (X Y : Type) where
  mu : X → Y → ℝ
  u : X → ℝ
  v : Y → ℝ
  error : ℝ
  ite : ℕ

/-- `matrixIPFP(sigma, tol, maxite)` from the IPFP implementation notebook:
kernel `K_x_y = np.exp(Phi_a / sigma)`, `B_y` initialized to ones, `error` to
`tol + 1`, the while-loop above, then
`u_x, v_y = -sigma*log(A_x), -sigma*log(B_y)` and
`mu_x_y = K_x_y * A_x * B_y`. -/
noncomputable def matrixIPFP {X Y : Type} [Fintype X] [Fintype Y] [Nonempty Y]
    (Phi : X → Y → ℝ) (sigma : ℝ) (n : X → ℝ) (m : Y → ℝ) (tol : ℝ)
    (maxite : ℕ) : IPFPResult X Y :=
  let K : X → Y → ℝ := fun x y => Real.exp (Phi x y / sigma)
  let r := mipfpLoop K n m tol maxite (maxite + 1)
    ⟨fun _ => 0, fun _ => 1, tol + 1, 0⟩
  ⟨fun x y => K x y * r.A x * r.B y,
    fun x => -sigma * Real.log (r.A x),
    fun y => -sigma * Real.log (r.B y),
    r.error, r.ite⟩

/-- Loop state of `logdomainIPFP`: the dual potentials `u_x`, `v_y`, the
current residual and the iteration count.  `u_x` is unassigned before the
first iteration in the source; the initial state carries 0 there. -/
structure LIPFPState (X Y : Type) where
  u : X → ℝ
  v : Y → ℝ
  error : ℝ
  ite : ℕ

/-- One body execution of the `logdomainIPFP` while-loop:
`u_x = lambda_x + sigma*log(sum_y exp((Phi_x_y - v_y)/sigma))`;
`KA_y = sum_x exp((Phi_x_y - u_x)/sigma)`;
`error = max(abs(KA_y * exp(-v_y/sigma) / m_y - 1))` (note: the subtraction
of 1 happens inside the absolute value, unlike `matrixIPFP`);
`v_y = zeta_y + sigma*log(KA_y)`, with `lambda_x = -sigma*log(n_x)`,
`zeta_y = -sigma*log(m_y)`. -/
noncomputable def lipfpStep {X Y : Type} [Fintype X] [Fintype Y] [Nonempty Y]
    (Phi : X → Y → ℝ) (sigma : ℝ) (n : X → ℝ) (m : Y → ℝ)
    (s : LIPFPState X Y) : LIPFPState X Y :=
  let u : X → ℝ := fun x =>
    -sigma * Real.log (n x) + sigma * Real.log (∑ y, Real.exp ((Phi x y - s.v y) / sigma))
  let KA : Y → ℝ := fun y => ∑ x, Real.exp ((Phi x y - u x) / sigma)
  ⟨u, fun y => -sigma * Real.log (m y) + sigma * Real.log (KA y),
    Finset.univ.sup' Finset.univ_nonempty
      (fun y => |KA y * Real.exp (-s.v y / sigma) / m y - 1|),
    s.ite + 1⟩

/-- The `logdomainIPFP` while-loop, fuelled like `mipfpLoop`. -/
noncomputable def lipfpLoop {X Y : Type} [Fintype X] [Fintype Y] [Nonempty Y]
    (Phi : X → Y → ℝ) (sigma : ℝ) (n : X → ℝ) (m : Y → ℝ) (tol : ℝ)
    (maxite : ℕ) : ℕ → LIPFPState X Y → LIPFPState X Y
  | 0, s => s
  | fuel + 1, s =>
      if tol < s.error ∧ s.ite < maxite then
        lipfpLoop Phi sigma n m tol maxite fuel (lipfpStep Phi sigma n m s)
      else s

/-- `logdomainIPFP(sigma, tol, maxite)`: `v_y` initialized to zeros, `error`
to `tol + 1`, the while-loop above, then
`mu_x_y = exp((Phi_x_y - u_x - v_y)/sigma)`. -/
noncomputable def logdomainIPFP {X Y : Type} [Fintype X] [Fintype Y] [Nonempty Y]
    (Phi : X → Y → ℝ) (sigma : ℝ) (n : X → ℝ) (m : Y → ℝ) (tol : ℝ)
    (maxite : ℕ) : IPFPResult X Y :=
  let r := lipfpLoop Phi sigma n m tol maxite (maxite + 1)
    ⟨fun _ => 0, fun _ => 0, tol + 1, 0⟩
  ⟨fun x y => Real.exp ((Phi x y - r.u x - r.v y) / sigma),
    r.u, r.v, r.error, r.ite⟩

/-- `vstar_x = (Phi_x_y - v_y).max(axis=1)` in
`logdomainIPFP_with_LSE_trick`: the row max subtracted before the first
log-sum-exp. -/
noncomputable def lseVstar {X Y : Type} [Fintype Y] [Nonempty Y]
    (Phi : X → Y → ℝ) (v : Y → ℝ) (x : X) : ℝ :=
  Finset.univ.sup' Finset.univ_nonempty (fun y => Phi x y - v y)

/-- The argument passed to `np.exp` inside the `u_x` update of
`logdomainIPFP_with_LSE_trick`: `(Phi_x_y - vstar_x - v_y)/sigma`. -/
noncomputable def lseArgU {X Y : Type} [Fintype Y] [Nonempty Y]
    (Phi : X → Y → ℝ) (sigma : ℝ) (v : Y → ℝ) (x : X) (y : Y) : ℝ :=
  (Phi x y - lseVstar Phi v x - v y) / sigma

/-- The `u_x` update of `logdomainIPFP_with_LSE_trick`:
`u_x = lambda_x + vstar_x + sigma*log(sum_y exp((Phi_x_y - vstar_x - v_y)/sigma))`. -/
noncomputable def lseU {X Y : Type} [Fintype Y] [Nonempty Y]
    (Phi : X → Y → ℝ) (sigma : ℝ) (n : X → ℝ) (v : Y → ℝ) (x : X) : ℝ :=
  -sigma * Real.log (n x) + lseVstar Phi v x +
    sigma * Real.log (∑ y, Real.exp (lseArgU Phi sigma v x y))

/-- `ustar_y = (Phi_x_y - u_x).max(axis=0)`: the column max subtracted before
the second log-sum-exp. -/
noncomputable def lseUstar {X Y : Type} [Fintype X] [Fintype Y] [Nonempty X]
    [Nonempty Y] (Phi : X → Y → ℝ) (sigma : ℝ) (n : X → ℝ) (v : Y → ℝ)
    (y : Y) : ℝ :=
  Finset.univ.sup' Finset.univ_nonempty (fun x => Phi x y - lseU Phi sigma n v x)

/-- The argument passed to `np.exp` inside the `KA_y` update of
`logdomainIPFP_with_LSE_trick`: `(Phi_x_y - u_x - ustar_y)/sigma`. -/
noncomputable def lseArgV {X Y : Type} [Fintype X] [Fintype Y] [Nonempty X]
    [Nonempty Y] (Phi : X → Y → ℝ) (sigma : ℝ) (n : X → ℝ) (v : Y → ℝ)
    (x : X) (y : Y) : ℝ :=
  (Phi x y - lseU Phi sigma n v x - lseUstar Phi sigma n v y) / sigma

/-- `KA_y = sum_x exp((Phi_x_y - u_x - ustar_y)/sigma)` in
`logdomainIPFP_with_LSE_trick`. -/
noncomputable def lseKA {X Y : Type} [Fintype X] [Fintype Y] [Nonempty X]
    [Nonempty Y] (Phi : X → Y → ℝ) (sigma : ℝ) (n : X → ℝ) (v : Y → ℝ)
    (y : Y) : ℝ :=
  ∑ x, Real.exp (lseArgV Phi sigma n v x y)

/-- The argument passed to `np.exp` inside the residual line of
`logdomainIPFP_with_LSE_trick`:
`error = max(abs(KA_y * exp((ustar_y - v_y)/sigma) / m_y - 1))`, so the
argument is `(ustar_y - v_y)/sigma`. -/
noncomputable def lseArgErr {X Y : Type} [Fintype X] [Fintype Y] [Nonempty X]
    [Nonempty Y] (Phi : X → Y → ℝ) (sigma : ℝ) (n : X → ℝ) (v : Y → ℝ)
    (y : Y) : ℝ :=
  (lseUstar Phi sigma n v y - v y) / sigma

/-- One body execution of the `logdomainIPFP_with_LSE_trick` while-loop, in
terms of the exponential arguments above; the `v_y` update is
`v_y = zeta_y + ustar_y + sigma*log(KA_y)`. -/
noncomputable def lseStep {X Y : Type} [Fintype X] [Fintype Y] [Nonempty X]
    [Nonempty Y] (Phi : X → Y → ℝ) (sigma : ℝ) (n : X → ℝ) (m : Y → ℝ)
    (s : LIPFPState X Y) : LIPFPState X Y :=
  ⟨lseU Phi sigma n s.v,
    fun y => -sigma * Real.log (m y) + lseUstar Phi sigma n s.v y +
      sigma * Real.log (lseKA Phi sigma n s.v y),
    Finset.univ.sup' Finset.univ_nonempty
      (fun y => |lseKA Phi sigma n s.v y * Real.exp (lseArgErr Phi sigma n s.v y) / m y - 1|),
    s.ite + 1⟩

/-- The `logdomainIPFP_with_LSE_trick` while-loop, fuelled like `mipfpLoop`;
as in the source, `v_y` starts at zeros and `error` at `tol + 1`. -/
noncomputable def lseLoop {X Y : Type} [Fintype X] [Fintype Y] [Nonempty X]
    [Nonempty Y] (Phi : X → Y → ℝ) (sigma : ℝ) (n : X → ℝ) (m : Y → ℝ)
    (tol : ℝ) (maxite : ℕ) : ℕ → LIPFPState X Y → LIPFPState X Y
  | 0, s => s
  | fuel + 1, s =>
      if tol < s.error ∧ s.ite < maxite then
        lseLoop Phi sigma n m tol maxite fuel (lseStep Phi sigma n m s)
      else s

/-- The initial `v_y = np.zeros(nby)` of the log-domain loops. -/
def lseV0 (Y : Type) : Y → ℝ := fun _ => 0

/-- Unfolding `ratioUpd` at an index with nonpositive direction coordinate. -/
theorem ratioUpd_neg {α : Type} [LinearOrderedField α] (z x : ℕ → α) (b : ℕ)
    (acc : Option (ℕ × α)) (hzb : ¬ 0 < z b) : ratioUpd z x b acc = acc := by
  simp [ratioUpd, hzb]

/-- Unfolding `ratioUpd` at a positive index starting from an empty
accumulator. -/
theorem ratioUpd_none {α : Type} [LinearOrderedField α] (z x : ℕ → α) (b : ℕ)
    (hzb : 0 < z b) : ratioUpd z x b none = some (b, x b / z b) := by
  simp [ratioUpd, hzb]

/-- Unfolding `ratioUpd` at a positive index that strictly improves the
carried minimum. -/
theorem ratioUpd_lt {α : Type} [LinearOrderedField α] (z x : ℕ → α) (b : ℕ)
    (p : ℕ × α) (hzb : 0 < z b) (hlt : x b / z b < p.2) :
    ratioUpd z x b (some p) = some (b, x b / z b) := by
  simp [ratioUpd, hzb, hlt]

/-- Unfolding `ratioUpd` at a positive index that does not strictly improve
the carried minimum. -/
theorem ratioUpd_ge {α : Type} [LinearOrderedField α] (z x : ℕ → α) (b : ℕ)
    (p : ℕ × α) (hzb : 0 < z b) (hlt : ¬ x b / z b < p.2) :
    ratioUpd z x b (some p) = some p := by
  simp [ratioUpd, hzb, hlt]

/-- The ratio scan returns nothing exactly when it started with nothing and
saw no index with a positive direction coordinate. -/
theorem ratioFold_eq_none {α : Type} [LinearOrderedField α] (z x : ℕ → α) :
    ∀ (l : List ℕ) (acc : Option (ℕ × α)),
      ratioFold z x l acc = none ↔ acc = none ∧ ∀ b ∈ l, ¬ 0 < z b
  | [], acc => by simp [ratioFold]
  | b :: rest, acc => by
    rw [ratioFold, ratioFold_eq_none z x rest]
    by_cases hzb : 0 < z b
    · cases acc with
      | none => rw [ratioUpd_none z x b hzb]; simp [hzb]
      | some p =>
        by_cases hlt : x b / z b < p.2
        · rw [ratioUpd_lt z x b p hzb hlt]; simp [hzb]
        · rw [ratioUpd_ge z x b p hzb hlt]; simp [hzb]
    · rw [ratioUpd_neg z x b acc hzb]
      constructor
      · rintro ⟨h1, h2⟩
        refine ⟨h1, fun b' hb' => ?_⟩
        rcases List.mem_cons.mp hb' with hb1 | hb2
        · rw [hb1]; exact hzb
        · exact h2 b' hb2
      · rintro ⟨h1, h2⟩
        exact ⟨h1, fun b' hb' => h2 b' (List.mem_cons_of_mem _ hb')⟩

/-- The scanned minimum never exceeds the ratio carried by the accumulator. -/
theorem ratioFold_le_acc {α : Type} [LinearOrderedField α] (z x : ℕ → α) :
    ∀ (l : List ℕ) (p0 p : ℕ × α),
      ratioFold z x l (some p0) = some p → p.2 ≤ p0.2
  | [], p0, p => by
    rw [ratioFold]
    rintro h
    cases h
    exact le_refl _
  | b :: rest, p0, p => by
    intro h
    rw [ratioFold] at h
    by_cases hzb : 0 < z b
    · by_cases hlt : x b / z b < p0.2
      · rw [ratioUpd_lt z x b p0 hzb hlt] at h
        exact le_trans (ratioFold_le_acc z x rest _ p h) (le_of_lt hlt)
      · rw [ratioUpd_ge z x b p0 hzb hlt] at h
        exact ratioFold_le_acc z x rest p0 p h
    · rw [ratioUpd_neg z x b _ hzb] at h
      exact ratioFold_le_acc z x rest p0 p h

/-- Any result of the ratio scan is either the initial accumulator or a pair
(index, ratio at that index) with positive direction coordinate from the
scanned list. -/
theorem ratioFold_some_src {α : Type} [LinearOrderedField α] (z x : ℕ → α) :
    ∀ (l : List ℕ) (acc : Option (ℕ × α)) (p : ℕ × α),
      ratioFold z x l acc = some p →
      acc = some p ∨ (p.1 ∈ l ∧ 0 < z p.1 ∧ p.2 = x p.1 / z p.1)
  | [], acc, p => by
    rw [ratioFold]
    intro h
    exact Or.inl h
  | b :: rest, acc, p => by
    intro h
    rw [ratioFold] at h
    by_cases hzb : 0 < z b
    · cases acc with
      | none =>
        rw [ratioUpd_none z x b hzb] at h
        rcases ratioFold_some_src z x rest _ p h with h' | h'
        · cases h'
          exact Or.inr ⟨List.mem_cons_self _ _, hzb, rfl⟩
        · exact Or.inr ⟨List.mem_cons_of_mem _ h'.1, h'.2⟩
      | some p0 =>
        by_cases hlt : x b / z b < p0.2
        · rw [ratioUpd_lt z x b p0 hzb hlt] at h
          rcases ratioFold_some_src z x rest _ p h with h' | h'
          · cases h'
            exact Or.inr ⟨List.mem_cons_self _ _, hzb, rfl⟩
          · exact Or.inr ⟨List.mem_cons_of_mem _ h'.1, h'.2⟩
        · rw [ratioUpd_ge z x b p0 hzb hlt] at h
          rcases ratioFold_some_src z x rest _ p h with h' | h'
          · exact Or.inl h'
          · exact Or.inr ⟨List.mem_cons_of_mem _ h'.1, h'.2⟩
    · rw [ratioUpd_neg z x b acc hzb] at h
      rcases ratioFold_some_src z x rest acc p h with h' | h'
      · exact Or.inl h'
      · exact Or.inr ⟨List.mem_cons_of_mem _ h'.1, h'.2⟩

/-- The returned ratio is minimal among the ratios of scanned indices with
positive direction coordinate. -/
theorem ratioFold_min {α : Type} [LinearOrderedField α] (z x : ℕ → α) :
    ∀ (l : List ℕ) (acc : Option (ℕ × α)) (p : ℕ × α),
      ratioFold z x l acc = some p →
      ∀ b ∈ l, 0 < z b → p.2 ≤ x b / z b
  | [], acc, p => by
    intro _ b hb
    exact absurd hb (List.not_mem_nil b)
  | b :: rest, acc, p => by
    intro h b' hb' hzb'
    rw [ratioFold] at h
    rcases List.mem_cons.mp hb' with hb1 | hb2
    · subst hb1
      cases acc with
      | none =>
        rw [ratioUpd_none z x b' hzb'] at h
        exact ratioFold_le_acc z x rest _ p h
      | some p0 =>
        by_cases hlt : x b' / z b' < p0.2
        · rw [ratioUpd_lt z x b' p0 hzb' hlt] at h
          exact ratioFold_le_acc z x rest _ p h
        · rw [ratioUpd_ge z x b' p0 hzb' hlt] at h
          exact le_trans (ratioFold_le_acc z x rest _ p h) (le_of_not_lt hlt)
    · by_cases hzb : 0 < z b
      · cases acc with
        | none =>
          rw [ratioUpd_none z x b hzb] at h
          exact ratioFold_min z x rest _ p h b' hb2 hzb'
        | some p0 =>
          by_cases hlt : x b / z b < p0.2
          · rw [ratioUpd_lt z x b p0 hzb hlt] at h
            exact ratioFold_min z x rest _ p h b' hb2 hzb'
          · rw [ratioUpd_ge z x b p0 hzb hlt] at h
            exact ratioFold_min z x rest _ p h b' hb2 hzb'
      · rw [ratioUpd_neg z x b acc hzb] at h
        exact ratioFold_min z x rest acc p h b' hb2 hzb'

/-- A successful `determine_departing` call returns an in-range departing row
with positive direction coordinate, the ratio at that row, and that ratio is
minimal among all in-range rows with positive direction coordinate. -/
theorem determine_departing_ok {α : Type} [LinearOrderedField α]
    (z x : ℕ → α) (nbb bdep : ℕ) (eps : α)
    (h : determine_departing z x nbb = Except.ok (bdep, eps)) :
    bdep < nbb ∧ 0 < z bdep ∧ eps = x bdep / z bdep ∧
      ∀ b < nbb, 0 < z b → eps ≤ x b / z b := by
  unfold determine_departing at h
  rcases hrf : ratioFold z x (List.range nbb) none with _ | p
  · rw [hrf] at h
    exact absurd h (by simp)
  · rw [hrf] at h
    have hp : p = (bdep, eps) := by
      cases h
      rfl
    subst hp
    rcases ratioFold_some_src z x (List.range nbb) none _ hrf with h' | h'
    · exact absurd h' (by simp)
    · refine ⟨List.mem_range.mp h'.1, h'.2.1, h'.2.2, ?_⟩
      intro b hb hzb
      exact ratioFold_min z x (List.range nbb) none _ hrf b (List.mem_range.mpr hb) hzb

/-- `determine_departing` fails (with the generic empty-min ValueError, the
only failure it has) exactly when no direction coordinate is positive. -/
theorem determine_departing_error_iff {α : Type} [LinearOrderedField α]
    (z x : ℕ → α) (nbb : ℕ) :
    determine_departing z x nbb = Except.error PivotFailure.emptyMin ↔
      ∀ b < nbb, ¬ 0 < z b := by
  unfold determine_departing
  rcases hrf : ratioFold z x (List.range nbb) none with _ | p
  · rw [ratioFold_eq_none] at hrf
    constructor
    · intro _ b hb
      exact hrf.2 b (List.mem_range.mpr hb)
    · intro _
      rfl
  · constructor
    · intro h
      exact absurd h (by simp)
    · intro hall
      have hnone : ratioFold z x (List.range nbb) none = none := by
        rw [ratioFold_eq_none]
        exact ⟨rfl, fun b hb => hall b (List.mem_range.mp hb)⟩
      rw [hnone] at hrf
      exact absurd hrf (by simp)

/-- C7: for every Pivoter state with invertible `B_i_b` satisfying
`B_i_b @ x_b = d` and `x_b >= 0`, and every entering column `Nent_i` on which
`determine_departing(Nent_i)` returns `(bdep, epsilon)` (with `z` the resolved
direction `B^-1 Nent`), the state after `update(bdep, epsilon, Nent_i)` -
which replaces column `bdep` of `B_i_b` by `Nent_i` - again satisfies
`B_i_b @ x_b = d` and `x_b >= 0`. -/
theorem C7_pivoter_update_invariant (nbb : ℕ) (B : ℕ → ℕ → ℝ)
    (x z Nent d : ℕ → ℝ) (bdep : ℕ) (eps : ℝ)
    (hinv : ∃ Binv : ℕ → ℕ → ℝ, ∀ v : ℕ → ℝ, ∀ i < nbb,
      (∑ j ∈ Finset.range nbb, Binv i j * ∑ l ∈ Finset.range nbb, B j l * v l) = v i)
    (hBx : ∀ i < nbb, (∑ j ∈ Finset.range nbb, B i j * x j) = d i)
    (hz : ∀ i < nbb, (∑ j ∈ Finset.range nbb, B i j * z j) = Nent i)
    (hx : ∀ j, 0 ≤ x j)
    (hdd : determine_departing z x nbb = Except.ok (bdep, eps)) :
    (∀ i < nbb, (∑ j ∈ Finset.range nbb, pivoter_update_B B Nent bdep i j *
        pivoter_update_x x z bdep eps j) = d i) ∧
    (∀ j < nbb, 0 ≤ pivoter_update_x x z bdep eps j) := by
  obtain ⟨hblt, hzb, heps, hmin⟩ := determine_departing_ok z x nbb bdep eps hdd
  have hzbne : z bdep ≠ 0 := ne_of_gt hzb
  have hx0 : eps * z bdep = x bdep := by
    rw [heps, div_mul_cancel₀ _ hzbne]
  have heps0 : 0 ≤ eps := by
    rw [heps]
    exact div_nonneg (hx bdep) (le_of_lt hzb)
  have hmem : bdep ∈ Finset.range nbb := Finset.mem_range.mpr hblt
  constructor
  · intro i hi
    have hsplit : ∑ j ∈ Finset.range nbb,
        pivoter_update_B B Nent bdep i j * pivoter_update_x x z bdep eps j =
        Nent i * eps + ∑ j ∈ (Finset.range nbb).erase bdep,
          (B i j * x j - eps * (B i j * z j)) := by
      rw [← Finset.add_sum_erase _ _ hmem]
      have hbd : pivoter_update_B B Nent bdep i bdep *
          pivoter_update_x x z bdep eps bdep = Nent i * eps := by
        simp [pivoter_update_B, pivoter_update_x]
      rw [hbd]
      congr 1
      apply Finset.sum_congr rfl
      intro j hj
      have hne : j ≠ bdep := (Finset.mem_erase.mp hj).1
      simp only [pivoter_update_B, pivoter_update_x, if_neg hne]
      ring
    rw [hsplit, Finset.sum_sub_distrib, Finset.sum_erase_eq_sub hmem,
      ← Finset.mul_sum, Finset.sum_erase_eq_sub hmem, hBx i hi, hz i hi]
    linear_combination (B i bdep) * hx0
  · intro j hjn
    by_cases hj : j = bdep
    · simp only [pivoter_update_x, if_pos hj]
      exact heps0
    · simp only [pivoter_update_x, if_neg hj]
      by_cases hzj : 0 < z j
      · have h1 : eps ≤ x j / z j := hmin j hjn hzj
        have h2 : eps * z j ≤ x j := (le_div_iff₀ hzj).mp h1
        linarith
      · have h2 : eps * z j ≤ 0 :=
          mul_nonpos_iff.mpr (Or.inl ⟨heps0, le_of_not_lt hzj⟩)
        have := hx j
        linarith

/-- Witness for C7: a concrete 1x1 pivot (identity basis, entering column 1,
solution 1) satisfying every hypothesis, pushed through
`C7_pivoter_update_invariant`. -/
theorem C7_witness :
    ((∃ Binv : ℕ → ℕ → ℝ, ∀ v : ℕ → ℝ, ∀ i < 1,
        (∑ j ∈ Finset.range 1, Binv i j * ∑ l ∈ Finset.range 1,
          (fun _ _ => (1:ℝ)) j l * v l) = v i) ∧
      (∀ i < 1, (∑ j ∈ Finset.range 1, (fun _ _ => (1:ℝ)) i j * (fun _ => (1:ℝ)) j) =
        (fun _ => (1:ℝ)) i) ∧
      (∀ i < 1, (∑ j ∈ Finset.range 1, (fun _ _ => (1:ℝ)) i j * (fun _ => (1:ℝ)) j) =
        (fun _ => (1:ℝ)) i) ∧
      (∀ j : ℕ, 0 ≤ (fun _ => (1:ℝ)) j) ∧
      determine_departing (fun _ => (1:ℝ)) (fun _ => (1:ℝ)) 1 = Except.ok (0, 1)) ∧
    ((∀ i < 1, (∑ j ∈ Finset.range 1,
        pivoter_update_B (fun _ _ => (1:ℝ)) (fun _ => (1:ℝ)) 0 i j *
        pivoter_update_x (fun _ => (1:ℝ)) (fun _ => (1:ℝ)) 0 1 j) = (fun _ => (1:ℝ)) i) ∧
      (∀ j < 1, 0 ≤ pivoter_update_x (fun _ => (1:ℝ)) (fun _ => (1:ℝ)) 0 1 j)) := by
  have hdd : determine_departing (fun _ => (1:ℝ)) (fun _ => (1:ℝ)) 1 =
      Except.ok (0, 1) := by
    simp [determine_departing, ratioFold, ratioUpd, List.range_succ]
  have h1 : ∀ i < 1, (∑ j ∈ Finset.range 1,
      (fun _ _ => (1:ℝ)) i j * (fun _ => (1:ℝ)) j) = (fun _ => (1:ℝ)) i := by
    intro i _
    simp
  refine ⟨⟨⟨fun _ _ => 1, ?_⟩, h1, h1, fun _ => zero_le_one, hdd⟩, ?_⟩
  · intro v i hi
    have hi0 : i = 0 := by omega
    subst hi0
    simp
  · exact C7_pivoter_update_invariant 1 (fun _ _ => 1) (fun _ => 1) (fun _ => 1)
      (fun _ => 1) (fun _ => 1) 0 1
      ⟨fun _ _ => 1, by
        intro v i hi
        obtain rfl := Nat.lt_one_iff.mp hi
        simp⟩
      h1 h1 (fun _ => zero_le_one) hdd

/-- C9 counterexample: on a concrete direction with no positive coordinate
(`z = (-1)`, a 1-row basis), `Pivoter.determine_departing` neither returns a
departing row nor raises any unboundedness-specific error: it fails with the
generic ValueError raised by python `min()` on an empty sequence
(`PivotFailure.emptyMin` in this embedding; no `UnboundedError` type exists
anywhere in the source), refuting the claim that unboundedness is signalled
as a distinct, identifiable `UnboundedError`. -/
theorem C9_counterexample :
    determine_departing (fun _ => (-1:ℝ)) (fun _ => (1:ℝ)) 1 =
      Except.error PivotFailure.emptyMin := by
  rw [determine_departing_error_iff]
  intro b _
  norm_num

/-- C9 amended: whenever the resolved direction `z = B^-1 Nent` has no
strictly positive coordinate, `determine_departing` does fail (it never
returns a departing row or a degenerate ratio), but the failure is the
generic empty-sequence ValueError from `min()` - the only failure this code
has - not a distinct `UnboundedError`; and it fails in no other situation. -/
theorem C9_unbounded_failure (z x : ℕ → ℝ) (nbb : ℕ) :
    determine_departing z x nbb = Except.error PivotFailure.emptyMin ↔
      ∀ b < nbb, ¬ 0 < z b :=
  determine_departing_error_iff z x nbb

/-- C4: in the cutting-stock column-generation loop
(ot05_matching-estimation.ipynb), whenever a pivot is accepted (the knapsack
pattern satisfies `k_i . aent_i > 1`) and the ratio test returns
`(jexit, epsilon)`, the updated basic solution has a sum no larger than the
current one: the objective is non-increasing.  Here `k` solves
`AB_i_j^T k = 1` and `zent` solves `AB_i_j zent = aent` as in the source. -/
theorem C4_column_generation_monotone (nbi : ℕ) (AB : ℕ → ℕ → ℝ)
    (xB zent aent k : ℕ → ℝ) (jexit : ℕ) (eps : ℝ)
    (hk : ∀ j < nbi, (∑ i ∈ Finset.range nbi, AB i j * k i) = 1)
    (hz : ∀ i < nbi, (∑ j ∈ Finset.range nbi, AB i j * zent j) = aent i)
    (hx : ∀ j, 0 ≤ xB j)
    (haccept : 1 < ∑ i ∈ Finset.range nbi, k i * aent i)
    (hdd : determine_departing zent xB nbi = Except.ok (jexit, eps)) :
    (∑ j ∈ Finset.range nbi, pivoter_update_x xB zent jexit eps j) ≤
      ∑ j ∈ Finset.range nbi, xB j := by
  obtain ⟨hjlt, hzj, heps, hmin⟩ := determine_departing_ok zent xB nbi jexit eps hdd
  have hzjne : zent jexit ≠ 0 := ne_of_gt hzj
  have hx0 : eps * zent jexit = xB jexit := by
    rw [heps, div_mul_cancel₀ _ hzjne]
  have heps0 : 0 ≤ eps := by
    rw [heps]
    exact div_nonneg (hx jexit) (le_of_lt hzj)
  have hmem : jexit ∈ Finset.range nbi := Finset.mem_range.mpr hjlt
  have hzsum : (∑ j ∈ Finset.range nbi, zent j) =
      ∑ i ∈ Finset.range nbi, k i * aent i := by
    calc (∑ j ∈ Finset.range nbi, zent j)
        = ∑ j ∈ Finset.range nbi, zent j * ∑ i ∈ Finset.range nbi, AB i j * k i := by
          apply Finset.sum_congr rfl
          intro j hj
          rw [hk j (Finset.mem_range.mp hj), mul_one]
      _ = ∑ j ∈ Finset.range nbi, ∑ i ∈ Finset.range nbi, zent j * (AB i j * k i) := by
          apply Finset.sum_congr rfl
          intro j _
          rw [Finset.mul_sum]
      _ = ∑ i ∈ Finset.range nbi, ∑ j ∈ Finset.range nbi, zent j * (AB i j * k i) :=
          Finset.sum_comm
      _ = ∑ i ∈ Finset.range nbi, k i * aent i := by
          apply Finset.sum_congr rfl
          intro i hi
          rw [← hz i (Finset.mem_range.mp hi), Finset.mul_sum]
          apply Finset.sum_congr rfl
          intro j _
          ring
  have hsplit : (∑ j ∈ Finset.range nbi, pivoter_update_x xB zent jexit eps j) =
      eps + ∑ j ∈ (Finset.range nbi).erase jexit, (xB j - eps * zent j) := by
    rw [← Finset.add_sum_erase _ _ hmem]
    have hbd : pivoter_update_x xB zent jexit eps jexit = eps := by
      simp [pivoter_update_x]
    rw [hbd]
    congr 1
    apply Finset.sum_congr rfl
    intro j hj
    have hne : j ≠ jexit := (Finset.mem_erase.mp hj).1
    simp only [pivoter_update_x, if_neg hne]
  rw [hsplit, Finset.sum_sub_distrib, Finset.sum_erase_eq_sub hmem,
    ← Finset.mul_sum, Finset.sum_erase_eq_sub hmem, hzsum]
  have hterm : 0 ≤ eps * ((∑ i ∈ Finset.range nbi, k i * aent i) - 1) := by
    apply mul_nonneg heps0
    linarith
  linarith

/-- Witness for C4: a concrete accepted 1x1 pivot (`AB = 1`, `xB = 1`,
`aent = 2`, `k = 1`, so `k . aent = 2 > 1` and the ratio test yields
`(0, 1/2)`), pushed through `C4_column_generation_monotone`. -/
theorem C4_witness :
    ((∀ j < 1, (∑ i ∈ Finset.range 1, (fun _ _ => (1:ℝ)) i j * (fun _ => (1:ℝ)) i) = 1) ∧
      (∀ i < 1, (∑ j ∈ Finset.range 1, (fun _ _ => (1:ℝ)) i j * (fun _ => (2:ℝ)) j) =
        (fun _ => (2:ℝ)) i) ∧
      (∀ j : ℕ, 0 ≤ (fun _ => (1:ℝ)) j) ∧
      (1 < ∑ i ∈ Finset.range 1, (fun _ => (1:ℝ)) i * (fun _ => (2:ℝ)) i) ∧
      determine_departing (fun _ => (2:ℝ)) (fun _ => (1:ℝ)) 1 = Except.ok (0, 1/2)) ∧
    (∑ j ∈ Finset.range 1,
      pivoter_update_x (fun _ => (1:ℝ)) (fun _ => (2:ℝ)) 0 (1/2) j) ≤
      ∑ j ∈ Finset.range 1, (fun _ => (1:ℝ)) j := by
  have hdd : determine_departing (fun _ => (2:ℝ)) (fun _ => (1:ℝ)) 1 =
      Except.ok (0, 1/2) := by
    norm_num [determine_departing, ratioFold, ratioUpd, List.range_succ]
  refine ⟨⟨fun j _ => by simp, fun i _ => by simp, fun _ => zero_le_one,
    by simp, hdd⟩, ?_⟩
  exact C4_column_generation_monotone 1 (fun _ _ => 1) (fun _ => 1) (fun _ => 2)
    (fun _ => 2) (fun _ => 1) 0 (1/2)
    (fun j _ => by simp) (fun i _ => by simp) (fun _ => zero_le_one)
    (by simp) hdd

/-- The first-argmax scan picks an index within the scanned range. -/
theorem argmaxScan_fst_le {α : Type} [LinearOrderedField α] (f : ℕ → α) :
    ∀ b, (argmaxScan f b).1 ≤ b
  | 0 => by rw [argmaxScan]
  | b + 1 => by
    rw [argmaxScan]
    by_cases hlt : (argmaxScan f b).2 < f (b + 1)
    · rw [if_pos hlt]
    · rw [if_neg hlt]
      exact le_trans (argmaxScan_fst_le f b) (Nat.le_succ b)

/-- The value returned by the scan is the value of `f` at the returned
index. -/
theorem argmaxScan_snd_eq {α : Type} [LinearOrderedField α] (f : ℕ → α) :
    ∀ b, (argmaxScan f b).2 = f (argmaxScan f b).1
  | 0 => by rw [argmaxScan]
  | b + 1 => by
    rw [argmaxScan]
    by_cases hlt : (argmaxScan f b).2 < f (b + 1)
    · rw [if_pos hlt]
    · rw [if_neg hlt]
      exact argmaxScan_snd_eq f b

/-- The scan value dominates `f` on the whole scanned range. -/
theorem argmaxScan_le {α : Type} [LinearOrderedField α] (f : ℕ → α) :
    ∀ b a, a ≤ b → f a ≤ (argmaxScan f b).2
  | 0, a, ha => by
    obtain rfl := Nat.le_zero.mp ha
    rw [argmaxScan]
  | b + 1, a, ha => by
    rw [argmaxScan]
    by_cases hlt : (argmaxScan f b).2 < f (b + 1)
    · rw [if_pos hlt]
      rcases Nat.lt_succ_iff_lt_or_eq.mp (Nat.lt_succ_of_le ha) with h | h
      · exact le_of_lt (lt_of_le_of_lt (argmaxScan_le f b a (Nat.lt_succ_iff.mp h)) hlt)
      · rw [h]
    · rw [if_neg hlt]
      rcases Nat.lt_succ_iff_lt_or_eq.mp (Nat.lt_succ_of_le ha) with h | h
      · exact argmaxScan_le f b a (Nat.lt_succ_iff.mp h)
      · rw [h]
        exact le_of_not_lt hlt

/-- The multiplicity chosen by the DP at row `i` fits the remaining
capacity: `A[i,v] * w[i] <= v`. -/
theorem knapF_mul_le {α : Type} [LinearOrderedField α] (w : ℕ → ℕ) (k : ℕ → α) :
    ∀ i v, (knapF w k i v).2 * w i ≤ v
  | 0, v => by
    rw [knapF]
    exact Nat.div_mul_le_self v (w 0)
  | i + 1, v => by
    rw [knapF]
    exact le_trans
      (Nat.mul_le_mul_right (w (i + 1)) (argmaxScan_fst_le _ (v / w (i + 1))))
      (Nat.div_mul_le_self v (w (i + 1)))

/-- The DP value at row `i+1` decomposes through the chosen multiplicity. -/
theorem knapF_step_eq {α : Type} [LinearOrderedField α] (w : ℕ → ℕ) (k : ℕ → α)
    (i v : ℕ) :
    (knapF w k (i + 1) v).1 =
      k (i + 1) * ((knapF w k (i + 1) v).2 : α) +
        (knapF w k i (v - (knapF w k (i + 1) v).2 * w (i + 1))).1 := by
  simp only [knapF]
  exact argmaxScan_snd_eq _ (v / w (i + 1))

/-- The DP table dominates the value of every feasible pattern on items
`0..i` (the exact-optimality upper bound for `knapsack`). -/
theorem knapF_ge {α : Type} [LinearOrderedField α] (w : ℕ → ℕ) (k : ℕ → α) :
    ∀ i, (∀ j ≤ i, 0 < w j) → ∀ (v : ℕ) (a : ℕ → ℕ),
      (∑ j ∈ Finset.range (i + 1), w j * a j) ≤ v →
      (∑ j ∈ Finset.range (i + 1), k j * (a j : α)) ≤ (knapF w k i v).1
  | 0, hw, v, a, hfeas => by
    rw [knapF]
    rw [Finset.sum_range_one] at hfeas ⊢
    have ha0 : a 0 ≤ v / w 0 :=
      (Nat.le_div_iff_mul_le (hw 0 (le_refl 0))).mpr
        (by rw [mul_comm] at hfeas; exact hfeas)
    calc k 0 * (a 0 : α) ≤ max (k 0) 0 * (a 0 : α) := by
          apply mul_le_mul_of_nonneg_right (le_max_left _ _) (Nat.cast_nonneg _)
      _ ≤ max (k 0) 0 * ((v / w 0 : ℕ) : α) := by
          apply mul_le_mul_of_nonneg_left _ (le_max_right _ _)
          exact_mod_cast ha0
      _ = ((v / w 0 : ℕ) : α) * max (k 0) 0 := mul_comm _ _
  | i + 1, hw, v, a, hfeas => by
    rw [Finset.sum_range_succ] at hfeas
    have hai : a (i + 1) * w (i + 1) ≤ v := by
      rw [mul_comm]
      exact le_trans (Nat.le_add_left _ _) hfeas
    have hbound : a (i + 1) ≤ v / w (i + 1) :=
      (Nat.le_div_iff_mul_le (hw (i + 1) (le_refl _))).mpr hai
    have hrest : (∑ j ∈ Finset.range (i + 1), w j * a j) ≤
        v - a (i + 1) * w (i + 1) := by
      apply Nat.le_sub_of_add_le
      rw [mul_comm (a (i + 1))]
      exact hfeas
    have hIH := knapF_ge w k i (fun j hj => hw j (le_trans hj (Nat.le_succ i)))
      (v - a (i + 1) * w (i + 1)) a hrest
    rw [Finset.sum_range_succ]
    have harg : k (i + 1) * (a (i + 1) : α) +
        (knapF w k i (v - a (i + 1) * w (i + 1))).1 ≤ (knapF w k (i + 1) v).1 := by
      simp only [knapF]
      exact argmaxScan_le
        (fun a0 => k (i + 1) * (a0 : α) + (knapF w k i (v - a0 * w (i + 1))).1)
        (v / w (i + 1)) (a (i + 1)) hbound
    linarith

/-- The backtracked pattern vanishes above the current row. -/
theorem knapBack_support {α : Type} [LinearOrderedField α] (w : ℕ → ℕ)
    (k : ℕ → α) : ∀ i v j, i < j → knapBack w k i v j = 0
  | 0, v, j, hij => by
    simp only [knapBack]
    rw [if_neg (by omega)]
  | i + 1, v, j, hij => by
    simp only [knapBack]
    rw [if_neg (by omega)]
    exact knapBack_support w k i _ j (by omega)

/-- The backtracked pattern is feasible for the capacity it started from. -/
theorem knapBack_feasible {α : Type} [LinearOrderedField α] (w : ℕ → ℕ)
    (k : ℕ → α) :
    ∀ i v, (∑ j ∈ Finset.range (i + 1), w j * knapBack w k i v j) ≤ v
  | 0, v => by
    rw [Finset.sum_range_one]
    simp only [knapBack, if_pos]
    rw [knapF, mul_comm]
    exact Nat.div_mul_le_self v (w 0)
  | i + 1, v => by
    rw [Finset.sum_range_succ]
    have hlast : knapBack w k (i + 1) v (i + 1) = (knapF w k (i + 1) v).2 := by
      simp [knapBack]
    have hrest : (∑ j ∈ Finset.range (i + 1), w j * knapBack w k (i + 1) v j) =
        ∑ j ∈ Finset.range (i + 1), w j *
          knapBack w k i (v - (knapF w k (i + 1) v).2 * w (i + 1)) j := by
      apply Finset.sum_congr rfl
      intro j hj
      have hj' : j ≠ i + 1 := by
        have := Finset.mem_range.mp hj
        omega
      simp only [knapBack]
      rw [if_neg hj']
    rw [hlast, hrest, mul_comm (w (i + 1))]
    have h1 := knapBack_feasible w k i (v - (knapF w k (i + 1) v).2 * w (i + 1))
    have h2 : (knapF w k (i + 1) v).2 * w (i + 1) ≤ v := knapF_mul_le w k (i + 1) v
    omega

/-- When the first dual value is nonnegative, the backtracked pattern attains
exactly the DP value (this is where row 0 of the table is consistent with its
recorded choice `A[0,v] = v // w[0]`). -/
theorem knapBack_value {α : Type} [LinearOrderedField α] (w : ℕ → ℕ)
    (k : ℕ → α) (hk0 : 0 ≤ k 0) :
    ∀ i v, (∑ j ∈ Finset.range (i + 1), k j * (knapBack w k i v j : α)) =
      (knapF w k i v).1
  | 0, v => by
    rw [Finset.sum_range_one]
    simp only [knapBack, knapF, if_pos]
    rw [max_eq_left hk0]
    ring
  | i + 1, v => by
    rw [Finset.sum_range_succ]
    have hlast : knapBack w k (i + 1) v (i + 1) = (knapF w k (i + 1) v).2 := by
      simp [knapBack]
    have hrest : (∑ j ∈ Finset.range (i + 1), k j * (knapBack w k (i + 1) v j : α)) =
        ∑ j ∈ Finset.range (i + 1), k j *
          (knapBack w k i (v - (knapF w k (i + 1) v).2 * w (i + 1)) j : α) := by
      apply Finset.sum_congr rfl
      intro j hj
      have hj' : j ≠ i + 1 := by
        have := Finset.mem_range.mp hj
        omega
      simp only [knapBack]
      rw [if_neg hj']
    rw [hlast, hrest, knapBack_value w k hk0 i _, knapF_step_eq w k i v]
    ring

/-- C5 counterexample: with the fixed weights `w_i` (first width 1380), the
value vector `k = (-1)` and capacity `W = 1380`, the pattern returned by
`knapsack` is `a* = (1)` (row 0 of the table always records `A[0,v] = v //
w[0]`, even though `F[0,v] = (v // w[0]) * max(k[0],0)` uses the clamped
value), whose dual value is `-1`; the zero pattern is feasible with value
`0 > -1`, so the returned pattern is not optimal. -/
theorem C5_counterexample :
    (∑ j ∈ Finset.range 1, wCS j * ((fun _ => 0) j : ℕ)) ≤ 1380 ∧
    (∑ j ∈ Finset.range 1,
        (fun _ => (-1:ℝ)) j * (knapsack wCS (fun _ => (-1:ℝ)) 1 1380 j : ℝ)) <
      ∑ j ∈ Finset.range 1, (fun _ => (-1:ℝ)) j * (((fun _ => 0) j : ℕ) : ℝ) := by
  constructor
  · simp
  · have hval : knapsack wCS (fun _ => (-1:ℝ)) 1 1380 0 = 1 := by
      show knapBack wCS (fun _ => (-1:ℝ)) 0 1380 0 = 1
      simp only [knapBack, knapF, if_pos]
      norm_num [wCS]
    rw [Finset.sum_range_one, Finset.sum_range_one, hval]
    norm_num

/-- C5 amended: for every real value vector `k` with `k 0 >= 0`, positive
item weights and nonnegative integer capacity `W`, `knapsack(k, W)` returns a
nonnegative integer pattern that is feasible and exactly optimal among all
nonnegative integer patterns of total weight at most `W`.  (The
nonnegativity restriction on the first value is forced by the
counterexample: row 0 of the DP records the unclamped multiplicity
`v // w[0]` even when `k 0 < 0`.) -/
theorem C5_knapsack_optimal (w : ℕ → ℕ) (k : ℕ → ℝ) (nbi W : ℕ)
    (hnbi : 0 < nbi) (hw : ∀ j < nbi, 0 < w j) (hk0 : 0 ≤ k 0) :
    (∑ j ∈ Finset.range nbi, w j * knapsack w k nbi W j) ≤ W ∧
    ∀ a : ℕ → ℕ, (∑ j ∈ Finset.range nbi, w j * a j) ≤ W →
      (∑ j ∈ Finset.range nbi, k j * (a j : ℝ)) ≤
        ∑ j ∈ Finset.range nbi, k j * (knapsack w k nbi W j : ℝ) := by
  obtain ⟨i, rfl⟩ : ∃ i, nbi = i + 1 :=
    ⟨nbi - 1, (Nat.succ_pred_eq_of_pos hnbi).symm⟩
  have hks : knapsack w k (i + 1) W = knapBack w k i W := by
    unfold knapsack
    norm_num
  rw [hks]
  constructor
  · exact knapBack_feasible w k i W
  · intro a hfeas
    have h1 : (∑ j ∈ Finset.range (i + 1), k j * (a j : ℝ)) ≤ (knapF w k i W).1 :=
      knapF_ge w k i (fun j hj => hw j (Nat.lt_succ_of_le hj)) W a hfeas
    have h2 : (∑ j ∈ Finset.range (i + 1), k j * (knapBack w k i W j : ℝ)) =
        (knapF w k i W).1 := knapBack_value w k hk0 i W
    linarith

/-- Witness for C5's amended theorem: the fixed widths `wCS`, unit values,
one item type and capacity 1380 satisfy all hypotheses; the conclusion is
obtained from `C5_knapsack_optimal`. -/
theorem C5_witness :
    ((0:ℕ) < 1 ∧ (∀ j < 1, 0 < wCS j) ∧ (0:ℝ) ≤ (fun _ => (1:ℝ)) 0) ∧
    ((∑ j ∈ Finset.range 1, wCS j * knapsack wCS (fun _ => (1:ℝ)) 1 1380 j) ≤ 1380 ∧
      ∀ a : ℕ → ℕ, (∑ j ∈ Finset.range 1, wCS j * a j) ≤ 1380 →
        (∑ j ∈ Finset.range 1, (fun _ => (1:ℝ)) j * (a j : ℝ)) ≤
          ∑ j ∈ Finset.range 1,
            (fun _ => (1:ℝ)) j * (knapsack wCS (fun _ => (1:ℝ)) 1 1380 j : ℝ)) := by
  have hw : ∀ j < 1, 0 < wCS j := by
    intro j hj
    obtain rfl := Nat.lt_one_iff.mp hj
    norm_num [wCS]
  exact ⟨⟨Nat.one_pos, hw, zero_le_one⟩,
    C5_knapsack_optimal wCS (fun _ => 1) 1 1380 Nat.one_pos hw zero_le_one⟩

/-- Each LCP variable and its complement form the pair recorded by
`lhPair`: one of them is the slack index `lhPair N k`, the other the
structural index `lhPair N k + N`. -/
theorem lhPair_members (N k : ℕ) (h : k < 2 * N) :
    (k = lhPair N k ∧ lhCompl N k = lhPair N k + N) ∨
    (k = lhPair N k + N ∧ lhCompl N k = lhPair N k) := by
  unfold lhPair lhCompl
  split_ifs <;> omega

/-- Pairs are indexed below `N`. -/
theorem lhPair_lt (N k : ℕ) (h : k < 2 * N) : lhPair N k < N := by
  unfold lhPair
  split_ifs <;> omega

/-- A variable differs from its complement. -/
theorem lhCompl_ne (N k : ℕ) (h : k < 2 * N) : lhCompl N k ≠ k := by
  unfold lhCompl
  split_ifs <;> omega

/-- Complements stay in range. -/
theorem lhCompl_lt (N k : ℕ) (h : k < 2 * N) : lhCompl N k < 2 * N := by
  unfold lhCompl
  split_ifs <;> omega

/-- On a fully complementary basis that contains the entering variable and
not the departing one, the loop-exit test of the Lemke-Howson loop holds. -/
theorem lhFC_exitTest (N : ℕ) (basis : Finset ℕ) (kent kdep : ℕ)
    (hk : kent < 2 * N) (hd : kdep < 2 * N) (hkb : kent ∈ basis)
    (hdb : kdep ∉ basis) (hfc : lhFullyComp N basis) :
    lhExitTest N basis kent kdep := by
  constructor
  · rcases lhPair_members N kent hk with ⟨h1, h2⟩ | ⟨h1, h2⟩
    · rcases hfc (lhPair N kent) (lhPair_lt N kent hk) with ⟨_, hb⟩ | ⟨ha, _⟩
      · rw [h2]
        exact hb
      · rw [← h1] at ha
        exact absurd hkb ha
    · rcases hfc (lhPair N kent) (lhPair_lt N kent hk) with ⟨_, hb⟩ | ⟨ha, _⟩
      · rw [← h1] at hb
        exact absurd hkb hb
      · rw [h2]
        exact ha
  · rcases lhPair_members N kdep hd with ⟨h1, h2⟩ | ⟨h1, h2⟩
    · rcases hfc (lhPair N kdep) (lhPair_lt N kdep hd) with ⟨ha, _⟩ | ⟨_, hb⟩
      · rw [← h1] at ha
        exact absurd ha hdb
      · rw [h2]
        exact hb
    · rcases hfc (lhPair N kdep) (lhPair_lt N kdep hd) with ⟨ha, _⟩ | ⟨_, hb⟩
      · rw [h2]
        exact ha
      · rw [← h1] at hb
        exact absurd hb hdb

/-- On an almost-complementary basis the exit test fails: the complement of
the departing variable is not basic, since its whole pair is empty. -/
theorem lhAC_not_exitTest (N : ℕ) (basis : Finset ℕ) (kent kdep : ℕ)
    (hd : kdep < 2 * N) (hac : lhAC N basis kdep) :
    ¬ lhExitTest N basis kent kdep := by
  rintro ⟨_, h2⟩
  rcases lhPair_members N kdep hd with ⟨_, hc⟩ | ⟨_, hc⟩
  · rw [hc] at h2
    exact hac.2.2.2.2.1 h2
  · rw [hc] at h2
    exact hac.2.2.2.1 h2

/-- An almost-complementary basis is not fully complementary: the departing
variable's pair has no basic member. -/
theorem lhAC_not_FC (N : ℕ) (basis : Finset ℕ) (kdep : ℕ)
    (hd : kdep < 2 * N) (hac : lhAC N basis kdep) :
    ¬ lhFullyComp N basis := by
  intro hfc
  rcases hfc (lhPair N kdep) (lhPair_lt N kdep hd) with ⟨ha, _⟩ | ⟨_, hb⟩
  · exact hac.2.2.2.1 ha
  · exact hac.2.2.2.2.1 hb

/-- The invariant holds after the first Lemke-Howson pivot, whichever basic
variable departs. -/
theorem lhInv_base (N kdep0 : ℕ) (h0 : kdep0 < N) :
    lhInv N (insert N ((Finset.range N).erase kdep0)) N kdep0 := by
  have hN : 0 < N := by omega
  have hmem : ∀ a, a ∈ insert N ((Finset.range N).erase kdep0) ↔
      (a = N ∨ (a ≠ kdep0 ∧ a < N)) := by
    intro a
    simp [Finset.mem_insert, Finset.mem_erase, Finset.mem_range]
  have hpair : lhPair N kdep0 = kdep0 := by
    unfold lhPair
    rw [if_pos h0]
  refine ⟨Finset.mem_insert_self _ _, ?_, by omega, by omega, ?_, ?_⟩
  · rw [hmem]
    omega
  · intro a ha
    rw [hmem] at ha
    rw [Finset.mem_range]
    omega
  · by_cases hz : kdep0 = 0
    · left
      intro p hp
      rw [hmem p, hmem (p + N)]
      omega
    · right
      refine ⟨?_, Finset.mem_insert_self _ _, ?_, ?_, ?_, ?_⟩
      · rw [hmem]
        omega
      · rw [hpair]
        exact hz
      · rw [hpair, hmem]
        omega
      · rw [hpair, hmem]
        omega
      · intro p hp hp0 hpk
        rw [hpair] at hpk
        rw [hmem p, hmem (p + N)]
        omega

/-- The invariant is preserved by one further Lemke-Howson pivot from a state
that failed the exit test. -/
theorem lhInv_step (N : ℕ) (basis : Finset ℕ) (kent kdep kdep' : ℕ)
    (ih : lhInv N basis kent kdep)
    (hno : ¬ lhExitTest N basis kent kdep)
    (hdep : kdep' ∈ basis) :
    lhInv N (insert (lhCompl N kdep) (basis.erase kdep')) (lhCompl N kdep) kdep' := by
  obtain ⟨hkb, hdb, hk2, hd2, hsub, hfcac⟩ := ih
  have hN : 0 < N := by omega
  have hac : lhAC N basis kdep := by
    rcases hfcac with hfc | hac
    · exact absurd (lhFC_exitTest N basis kent kdep hk2 hd2 hkb hdb hfc) hno
    · exact hac
  obtain ⟨h0b, hNb, hPne0, hP1, hP2, hrest⟩ := hac
  have hPlt : lhPair N kdep < N := lhPair_lt N kdep hd2
  have hc2 : lhCompl N kdep < 2 * N := lhCompl_lt N kdep hd2
  have hcb : lhCompl N kdep ∉ basis := by
    rcases lhPair_members N kdep hd2 with ⟨_, hc⟩ | ⟨_, hc⟩
    · rw [hc]
      exact hP2
    · rw [hc]
      exact hP1
  have hkdne : kdep' ≠ lhCompl N kdep := fun he => hcb (he ▸ hdep)
  have hd'2 : kdep' < 2 * N := Finset.mem_range.mp (hsub hdep)
  have hmem : ∀ a, a ∈ insert (lhCompl N kdep) (basis.erase kdep') ↔
      (a = lhCompl N kdep ∨ (a ≠ kdep' ∧ a ∈ basis)) := by
    intro a
    simp [Finset.mem_insert, Finset.mem_erase]
  have hkdep_out : kdep ∉ insert (lhCompl N kdep) (basis.erase kdep') := by
    rw [hmem]
    rintro (he | ⟨_, hin⟩)
    · exact lhCompl_ne N kdep hd2 he.symm
    · exact hdb hin
  have hc_ne_0 : lhCompl N kdep ≠ 0 := by
    rcases lhPair_members N kdep hd2 with ⟨_, hc⟩ | ⟨_, hc⟩ <;> rw [hc] <;> omega
  have hc_ne_N : lhCompl N kdep ≠ N := by
    rcases lhPair_members N kdep hd2 with ⟨_, hc⟩ | ⟨_, hc⟩ <;> rw [hc] <;> omega
  refine ⟨Finset.mem_insert_self _ _, ?_, hc2, hd'2, ?_, ?_⟩
  · rw [hmem]
    rintro (he | ⟨hne, _⟩)
    · exact hkdne he
    · exact hne rfl
  · intro a ha
    rw [hmem] at ha
    rw [Finset.mem_range]
    rcases ha with rfl | ⟨_, hin⟩
    · exact hc2
    · exact Finset.mem_range.mp (hsub hin)
  · -- the complementarity structure of the new basis
    by_cases hq : kdep' = 0 ∨ kdep' = N
    · -- the departing variable came from the doubled pair 0: fully
      -- complementary now
      left
      intro p hp
      by_cases hp0 : p = 0
      · subst hp0
        rcases hq with rfl | rfl
        · right
          constructor
          · rw [hmem]
            rintro (he | ⟨hne, _⟩)
            · exact hc_ne_0 he.symm
            · exact hne rfl
          · rw [hmem]
            right
            refine ⟨by omega, by simpa using hNb⟩
        · left
          constructor
          · rw [hmem]
            right
            exact ⟨by omega, h0b⟩
          · rw [hmem]
            simp only [zero_add]
            rintro (he | ⟨hne, _⟩)
            · exact hc_ne_N he.symm
            · exact hne rfl
      · by_cases hpP : p = lhPair N kdep
        · subst hpP
          rcases lhPair_members N kdep hd2 with ⟨h1, h2⟩ | ⟨h1, h2⟩
          · -- kdep is the slack member, its complement the structural one
            right
            constructor
            · rw [← h1]
              exact hkdep_out
            · rw [← h2, hmem]
              left
              rfl
          · left
            constructor
            · rw [← h2, hmem]
              left
              rfl
            · rw [← h1]
              exact hkdep_out
        · have hpc : p ≠ lhCompl N kdep ∧ p + N ≠ lhCompl N kdep := by
            rcases lhPair_members N kdep hd2 with ⟨_, hc⟩ | ⟨_, hc⟩ <;> rw [hc] <;>
              constructor <;> omega
          have hpd : p ≠ kdep' ∧ p + N ≠ kdep' := by
            rcases hq with rfl | rfl <;> constructor <;> omega
          have hiff1 : p ∈ insert (lhCompl N kdep) (basis.erase kdep') ↔
              p ∈ basis := by
            rw [hmem]
            constructor
            · rintro (he | ⟨_, hin⟩)
              · exact absurd he hpc.1
              · exact hin
            · intro hin
              exact Or.inr ⟨hpd.1, hin⟩
          have hiff2 : p + N ∈ insert (lhCompl N kdep) (basis.erase kdep') ↔
              p + N ∈ basis := by
            rw [hmem]
            constructor
            · rintro (he | ⟨_, hin⟩)
              · exact absurd he hpc.2
              · exact hin
            · intro hin
              exact Or.inr ⟨hpd.2, hin⟩
          rw [hiff1, hiff2]
          exact hrest p hp hp0 hpP
    · -- the departing variable opens a fresh pair: almost complementary
      -- again, with the new departing pair empty
      right
      push_neg at hq
      have hQlt : lhPair N kdep' < N := lhPair_lt N kdep' hd'2
      have hQne0 : lhPair N kdep' ≠ 0 := by
        rcases lhPair_members N kdep' hd'2 with ⟨h1, _⟩ | ⟨h1, _⟩ <;> omega
      have hQneP : lhPair N kdep' ≠ lhPair N kdep := by
        intro he
        rcases lhPair_members N kdep' hd'2 with ⟨h1, _⟩ | ⟨h1, _⟩
        · rw [h1, he] at hdep
          exact hP1 hdep
        · rw [h1, he] at hdep
          exact hP2 hdep
      have hother : lhCompl N kdep' ∉ basis := by
        rcases hrest (lhPair N kdep') hQlt hQne0 hQneP with ⟨ha, hb⟩ | ⟨ha, hb⟩
        · rcases lhPair_members N kdep' hd'2 with ⟨h1, h2⟩ | ⟨h1, h2⟩
          · rw [h2]
            exact hb
          · rw [h1] at hdep
            exact absurd hdep hb
        · rcases lhPair_members N kdep' hd'2 with ⟨h1, h2⟩ | ⟨h1, h2⟩
          · rw [h1] at hdep
            exact absurd hdep ha
          · rw [h2]
            exact ha
      have hQc : lhPair N kdep' ≠ lhCompl N kdep ∧
          lhPair N kdep' + N ≠ lhCompl N kdep := by
        rcases lhPair_members N kdep hd2 with ⟨_, hc⟩ | ⟨_, hc⟩ <;> rw [hc] <;>
          constructor <;> omega
      refine ⟨?_, ?_, hQne0, ?_, ?_, ?_⟩
      · rw [hmem]
        right
        exact ⟨fun he => hq.1 he.symm, h0b⟩
      · rw [hmem]
        right
        exact ⟨fun he => hq.2 he.symm, hNb⟩
      · rw [hmem]
        rintro (he | ⟨hne, hin⟩)
        · exact hQc.1 he
        · rcases lhPair_members N kdep' hd'2 with ⟨h1, h2⟩ | ⟨h1, h2⟩
          · exact hne (by omega)
          · rw [← h2] at hin
            exact hother hin
      · rw [hmem]
        rintro (he | ⟨hne, hin⟩)
        · exact hQc.2 he
        · rcases lhPair_members N kdep' hd'2 with ⟨h1, h2⟩ | ⟨h1, h2⟩
          · rw [← h2] at hin
            exact hother hin
          · exact hne (by omega)
      · intro p hp hp0 hpQ
        by_cases hpP : p = lhPair N kdep
        · subst hpP
          rcases lhPair_members N kdep hd2 with ⟨h1, h2⟩ | ⟨h1, h2⟩
          · right
            constructor
            · rw [← h1]
              exact hkdep_out
            · rw [← h2, hmem]
              left
              rfl
          · left
            constructor
            · rw [← h2, hmem]
              left
              rfl
            · rw [← h1]
              exact hkdep_out
        · have hpc : p ≠ lhCompl N kdep ∧ p + N ≠ lhCompl N kdep := by
            rcases lhPair_members N kdep hd2 with ⟨_, hc⟩ | ⟨_, hc⟩ <;> rw [hc] <;>
              constructor <;> omega
          have hpd : p ≠ kdep' ∧ p + N ≠ kdep' := by
            rcases lhPair_members N kdep' hd'2 with ⟨h1, _⟩ | ⟨h1, _⟩ <;>
              constructor <;> omega
          have hiff1 : p ∈ insert (lhCompl N kdep) (basis.erase kdep') ↔
              p ∈ basis := by
            rw [hmem]
            constructor
            · rintro (he | ⟨_, hin⟩)
              · exact absurd he hpc.1
              · exact hin
            · intro hin
              exact Or.inr ⟨hpd.1, hin⟩
          have hiff2 : p + N ∈ insert (lhCompl N kdep) (basis.erase kdep') ↔
              p + N ∈ basis := by
            rw [hmem]
            constructor
            · rintro (he | ⟨_, hin⟩)
              · exact absurd he hpc.2
              · exact hin
            · intro hin
              exact Or.inr ⟨hpd.2, hin⟩
          rw [hiff1, hiff2]
          exact hrest p hp hp0 hpP

/-- Every state reachable by the Lemke-Howson pivot loop satisfies the loop
invariant. -/
theorem lhReach_inv (N : ℕ) (basis : Finset ℕ) (kent kdep : ℕ)
    (h : LHReach N basis kent kdep) : lhInv N basis kent kdep := by
  induction h with
  | base kdep0 h0 => exact lhInv_base N kdep0 h0
  | step basis kent kdep kdep' hR hno hdep ih =>
      exact lhInv_step N basis kent kdep kdep' ih hno hdep

/-- C6: in every state reachable by the Lemke-Howson pivot loop started from
the all-slack basis, the loop's exit test - the complement of the variable
that just entered is not in the basis, and the complement of the variable
that just departed is in the basis - holds if and only if the basis is fully
complementary (for every complementary pair `(z_k, w_k)` exactly one of the
two is basic). -/
theorem C6_exit_iff_fully_complementary (N : ℕ) (basis : Finset ℕ)
    (kent kdep : ℕ) (h : LHReach N basis kent kdep) :
    lhExitTest N basis kent kdep ↔ lhFullyComp N basis := by
  obtain ⟨hkb, hdb, hk2, hd2, _, hfcac⟩ := lhReach_inv N basis kent kdep h
  constructor
  · intro hex
    rcases hfcac with hfc | hac
    · exact hfc
    · exact absurd hex (lhAC_not_exitTest N basis kent kdep hd2 hac)
  · intro hfc
    exact lhFC_exitTest N basis kent kdep hk2 hd2 hkb hdb hfc

/-- Witness for C6: the state after a concrete first pivot of a 2-pair game
(`z_1` enters, slack `w_2` departs) is reachable, and the equivalence holds
there by `C6_exit_iff_fully_complementary`. -/
theorem C6_witness :
    LHReach 2 (insert 2 ((Finset.range 2).erase 1)) 2 1 ∧
    (lhExitTest 2 (insert 2 ((Finset.range 2).erase 1)) 2 1 ↔
      lhFullyComp 2 (insert 2 ((Finset.range 2).erase 1))) :=
  ⟨LHReach.base 1 (by norm_num),
    C6_exit_iff_fully_complementary 2 _ 2 1 (LHReach.base 1 (by norm_num))⟩

/-- C2: for every bimatrix game on which `lemke_howson_solve` terminates
(spec-modelled terminal state, since `mec.lp.Tableau` is not among the
repository sources), the recovered mixed strategies `p_i = x_i/sum(x)`,
`q_j = y_j/sum(y)` pass `is_NashEq` for every nonnegative tolerance: no pure
strategy of either player improves on the mixed pair by more than `tol`. -/
theorem C2_lemke_howson_nash {I J : Type} [Fintype I] [Fintype J] [Nonempty I]
    [Nonempty J] {α : Type} [LinearOrderedField α] (A B : I → J → α)
    (x : I → α) (y : J → α) (tol : α) (hterm : LHTerminal A B x y)
    (htol : 0 ≤ tol) :
    is_NashEq A B (lhMixed x) (lhMixed y) tol = true := by
  obtain ⟨hx, hy, hr, hs, hcx, hcy, hnz⟩ := hterm
  -- both structural blocks are nonzero at a nontrivial complementary point
  have hy_ex : ∃ j, 0 < y j := by
    by_contra hy0
    push_neg at hy0
    have hy0' : ∀ j, y j = 0 := fun j => le_antisymm (hy0 j) (hy j)
    have hx0' : ∀ i, x i = 0 := by
      intro i
      have h := hcx i
      have hzero : (∑ j, lhShift A i j * y j) = 0 := by
        apply Finset.sum_eq_zero
        intro j _
        rw [hy0' j, mul_zero]
      rw [hzero, sub_zero, mul_one] at h
      exact h
    rcases hnz with h | h
    · exact h (funext hx0')
    · exact h (funext hy0')
  have hx_ex : ∃ i, 0 < x i := by
    by_contra hx0
    push_neg at hx0
    have hx0' : ∀ i, x i = 0 := fun i => le_antisymm (hx0 i) (hx i)
    have hy0' : ∀ j, y j = 0 := by
      intro j
      have h := hcy j
      have hzero : (∑ i, lhShift B i j * x i) = 0 := by
        apply Finset.sum_eq_zero
        intro i _
        rw [hx0' i, mul_zero]
      rw [hzero, sub_zero, mul_one] at h
      exact h
    rcases hnz with h | h
    · exact h (funext hx0')
    · exact h (funext hy0')
  obtain ⟨i0, hi0⟩ := hx_ex
  obtain ⟨j0, hj0⟩ := hy_ex
  have hSx : 0 < ∑ i, x i :=
    Finset.sum_pos' (fun i _ => hx i) ⟨i0, Finset.mem_univ i0, hi0⟩
  have hSy : 0 < ∑ j, y j :=
    Finset.sum_pos' (fun j _ => hy j) ⟨j0, Finset.mem_univ j0, hj0⟩
  have hSxne : (∑ i, x i) ≠ 0 := ne_of_gt hSx
  have hSyne : (∑ j, y j) ≠ 0 := ne_of_gt hSy
  -- complementarity: on the support of x the shifted row constraints bind
  have hxA : ∀ i, x i * (∑ j, lhShift A i j * y j) = x i := by
    intro i
    have h := hcx i
    rw [mul_sub, mul_one] at h
    linarith
  have hyB : ∀ j, y j * (∑ i, lhShift B i j * x i) = y j := by
    intro j
    have h := hcy j
    rw [mul_sub, mul_one] at h
    linarith
  -- the two mixed strategies are probability vectors
  have hp1 : (∑ i, lhMixed x i) = 1 := by
    unfold lhMixed
    rw [← Finset.sum_mul]
    field_simp
  have hq1 : (∑ j, lhMixed y j) = 1 := by
    unfold lhMixed
    rw [← Finset.sum_mul]
    field_simp
  -- the shifted mixed payoff of the row player is 1/sum(y)
  have hrow_inner : (∑ i, x i * (∑ j, lhShift A i j * y j)) = ∑ i, x i :=
    Finset.sum_congr rfl (fun i _ => hxA i)
  have hmixA' : mixedPayoff (lhMixed x) (lhShift A) (lhMixed y) =
      1 / ∑ j, y j := by
    unfold mixedPayoff lhMixed
    have hstep : ∀ i, (∑ j, (x i * (1 / ∑ i', x i')) * lhShift A i j *
        (y j * (1 / ∑ j', y j'))) =
        (x i * (∑ j, lhShift A i j * y j)) * ((1 / ∑ i', x i') * (1 / ∑ j', y j')) := by
      intro i
      rw [Finset.mul_sum, Finset.sum_mul]
      apply Finset.sum_congr rfl
      intro j _
      ring
    calc (∑ i, ∑ j, (x i * (1 / ∑ i', x i')) * lhShift A i j *
          (y j * (1 / ∑ j', y j')))
        = ∑ i, (x i * (∑ j, lhShift A i j * y j)) *
            ((1 / ∑ i', x i') * (1 / ∑ j', y j')) :=
          Finset.sum_congr rfl (fun i _ => hstep i)
      _ = (∑ i, x i * (∑ j, lhShift A i j * y j)) *
            ((1 / ∑ i', x i') * (1 / ∑ j', y j')) := by rw [Finset.sum_mul]
      _ = 1 / ∑ j, y j := by
          rw [hrow_inner]
          field_simp
  -- every shifted pure row payoff is at most 1/sum(y)
  have hrowA' : ∀ i, rowPure (lhShift A) (lhMixed y) i ≤ 1 / ∑ j, y j := by
    intro i
    unfold rowPure lhMixed
    have hstep : (∑ j, lhShift A i j * (y j * (1 / ∑ j', y j'))) =
        (∑ j, lhShift A i j * y j) * (1 / ∑ j', y j') := by
      rw [Finset.sum_mul]
      apply Finset.sum_congr rfl
      intro j _
      ring
    rw [hstep]
    have hle : (∑ j, lhShift A i j * y j) ≤ 1 := by
      have h := hr i
      linarith
    have hpos : 0 < 1 / ∑ j', y j' := by positivity
    calc (∑ j, lhShift A i j * y j) * (1 / ∑ j', y j')
        ≤ 1 * (1 / ∑ j', y j') := by
          apply mul_le_mul_of_nonneg_right hle (le_of_lt hpos)
      _ = 1 / ∑ j', y j' := one_mul _
  -- the shifted mixed payoff of the column player is 1/sum(x)
  have hcol_inner : (∑ j, y j * (∑ i, lhShift B i j * x i)) = ∑ j, y j :=
    Finset.sum_congr rfl (fun j _ => hyB j)
  have hmixB' : mixedPayoff (lhMixed x) (lhShift B) (lhMixed y) =
      1 / ∑ i, x i := by
    unfold mixedPayoff lhMixed
    rw [Finset.sum_comm]
    have hstep : ∀ j, (∑ i, (x i * (1 / ∑ i', x i')) * lhShift B i j *
        (y j * (1 / ∑ j', y j'))) =
        (y j * (∑ i, lhShift B i j * x i)) * ((1 / ∑ i', x i') * (1 / ∑ j', y j')) := by
      intro j
      rw [Finset.mul_sum, Finset.sum_mul]
      apply Finset.sum_congr rfl
      intro i _
      ring
    calc (∑ j, ∑ i, (x i * (1 / ∑ i', x i')) * lhShift B i j *
          (y j * (1 / ∑ j', y j')))
        = ∑ j, (y j * (∑ i, lhShift B i j * x i)) *
            ((1 / ∑ i', x i') * (1 / ∑ j', y j')) :=
          Finset.sum_congr rfl (fun j _ => hstep j)
      _ = (∑ j, y j * (∑ i, lhShift B i j * x i)) *
            ((1 / ∑ i', x i') * (1 / ∑ j', y j')) := by rw [Finset.sum_mul]
      _ = 1 / ∑ i, x i := by
          rw [hcol_inner]
          field_simp
          ring
  have hcolB' : ∀ j, colPure (lhShift B) (lhMixed x) j ≤ 1 / ∑ i, x i := by
    intro j
    unfold colPure lhMixed
    have hstep : (∑ i, (x i * (1 / ∑ i', x i')) * lhShift B i j) =
        (∑ i, lhShift B i j * x i) * (1 / ∑ i', x i') := by
      rw [Finset.sum_mul]
      apply Finset.sum_congr rfl
      intro i _
      ring
    rw [hstep]
    have hle : (∑ i, lhShift B i j * x i) ≤ 1 := by
      have h := hs j
      linarith
    have hpos : 0 < 1 / ∑ i', x i' := by positivity
    calc (∑ i, lhShift B i j * x i) * (1 / ∑ i', x i')
        ≤ 1 * (1 / ∑ i', x i') := by
          apply mul_le_mul_of_nonneg_right hle (le_of_lt hpos)
      _ = 1 / ∑ i', x i' := one_mul _
  -- undo the positivity shift: it moves all payoffs by the same constant
  have hshiftRow : ∀ (M : I → J → α) (i : I),
      rowPure M (lhMixed y) i =
        rowPure (lhShift M) (lhMixed y) i + (matMin M - 1) := by
    intro M i
    unfold rowPure lhShift
    have hstep : (∑ j, M i j * lhMixed y j) =
        (∑ j, (M i j - matMin M + 1) * lhMixed y j) +
          (matMin M - 1) * ∑ j, lhMixed y j := by
      rw [Finset.mul_sum, ← Finset.sum_add_distrib]
      apply Finset.sum_congr rfl
      intro j _
      ring
    rw [hstep, hq1, mul_one]
  have hshiftCol : ∀ (M : I → J → α) (j : J),
      colPure M (lhMixed x) j =
        colPure (lhShift M) (lhMixed x) j + (matMin M - 1) := by
    intro M j
    unfold colPure lhShift
    have hstep : (∑ i, lhMixed x i * M i j) =
        (∑ i, lhMixed x i * (M i j - matMin M + 1)) +
          (matMin M - 1) * ∑ i, lhMixed x i := by
      rw [Finset.mul_sum, ← Finset.sum_add_distrib]
      apply Finset.sum_congr rfl
      intro i _
      ring
    rw [hstep, hp1, mul_one]
  have hshiftMix : ∀ M : I → J → α,
      mixedPayoff (lhMixed x) M (lhMixed y) =
        mixedPayoff (lhMixed x) (lhShift M) (lhMixed y) + (matMin M - 1) := by
    intro M
    unfold mixedPayoff lhShift
    have hstep : ∀ i, (∑ j, lhMixed x i * M i j * lhMixed y j) =
        (∑ j, lhMixed x i * (M i j - matMin M + 1) * lhMixed y j) +
          (matMin M - 1) * (lhMixed x i * ∑ j, lhMixed y j) := by
      intro i
      rw [Finset.mul_sum, Finset.mul_sum, ← Finset.sum_add_distrib]
      apply Finset.sum_congr rfl
      intro j _
      ring
    calc (∑ i, ∑ j, lhMixed x i * M i j * lhMixed y j)
        = ∑ i, ((∑ j, lhMixed x i * (M i j - matMin M + 1) * lhMixed y j) +
            (matMin M - 1) * (lhMixed x i * ∑ j, lhMixed y j)) :=
          Finset.sum_congr rfl (fun i _ => hstep i)
      _ = (∑ i, ∑ j, lhMixed x i * (M i j - matMin M + 1) * lhMixed y j) +
            (matMin M - 1) * ((∑ i, lhMixed x i) * ∑ j, lhMixed y j) := by
          rw [Finset.sum_add_distrib, ← Finset.mul_sum, Finset.sum_mul]
      _ = (∑ i, ∑ j, lhMixed x i * (M i j - matMin M + 1) * lhMixed y j) +
            (matMin M - 1) := by rw [hp1, hq1, one_mul, mul_one]
  -- assemble the boolean check
  unfold is_NashEq
  rw [decide_eq_true_eq]
  constructor
  · intro i
    rw [not_lt, hshiftRow A i, hshiftMix A, hmixA']
    have := hrowA' i
    linarith
  · intro j
    rw [not_lt, hshiftCol B j, hshiftMix B, hmixB']
    have := hcolB' j
    linarith

/-- Witness for C2: the 1x1 game with unit payoffs has the concrete terminal
state `x = y = (1)` (for the shifted matrices `A' = B' = (1)` the slacks
vanish), and `C2_lemke_howson_nash` turns it into a passing `is_NashEq`
check at `tol = 0`. -/
theorem C2_witness :
    (LHTerminal (fun _ _ => (1:ℚ) : Fin 1 → Fin 1 → ℚ) (fun _ _ => (1:ℚ))
        (fun _ => (1:ℚ)) (fun _ => (1:ℚ)) ∧ (0:ℚ) ≤ 0) ∧
    is_NashEq (fun _ _ => (1:ℚ) : Fin 1 → Fin 1 → ℚ) (fun _ _ => (1:ℚ))
      (lhMixed (fun _ => (1:ℚ))) (lhMixed (fun _ => (1:ℚ)))
      0 = true := by
  have hmin : matMin (fun _ _ => (1:ℚ) : Fin 1 → Fin 1 → ℚ) = 1 := by
    unfold matMin
    apply le_antisymm
    · exact Finset.inf'_le _ (Finset.mem_univ ((0, 0) : Fin 1 × Fin 1))
    · apply Finset.le_inf'
      intro b _
      exact le_refl 1
  have hshift : ∀ i j : Fin 1,
      lhShift (fun _ _ => (1:ℚ) : Fin 1 → Fin 1 → ℚ) i j = 1 := by
    intro i j
    unfold lhShift
    rw [hmin]
    ring
  have hterm : LHTerminal (fun _ _ => (1:ℚ) : Fin 1 → Fin 1 → ℚ) (fun _ _ => (1:ℚ))
      (fun _ => (1:ℚ)) (fun _ => (1:ℚ)) := by
    refine ⟨fun i => zero_le_one, fun j => zero_le_one, ?_, ?_, ?_, ?_, Or.inl ?_⟩
    · intro i
      rw [Fin.sum_univ_one, hshift]
      norm_num
    · intro j
      rw [Fin.sum_univ_one, hshift]
      norm_num
    · intro i
      rw [Fin.sum_univ_one, hshift]
      norm_num
    · intro j
      rw [Fin.sum_univ_one, hshift]
      norm_num
    · intro h
      have h0 := congrFun h 0
      norm_num at h0
  exact ⟨⟨hterm, le_refl 0⟩,
    C2_lemke_howson_nash (fun _ _ => (1:ℚ)) (fun _ _ => (1:ℚ))
      (fun _ => (1:ℚ)) (fun _ => (1:ℚ)) 0 hterm (le_refl 0)⟩

/-- Evaluation of a numpy `.max()` over a single index. -/
theorem sup'_univ_fin1 {β : Type} [LinearOrder β] (f : Fin 1 → β) :
    Finset.univ.sup' Finset.univ_nonempty f = f 0 := by
  apply le_antisymm
  · apply Finset.sup'_le
    intro b _
    fin_cases b
    exact le_refl _
  · exact Finset.le_sup' f (Finset.mem_univ 0)

/-- Evaluation of a numpy `.max()` over two indices. -/
theorem sup'_univ_fin2 {β : Type} [LinearOrder β] (f : Fin 2 → β) :
    Finset.univ.sup' Finset.univ_nonempty f = max (f 0) (f 1) := by
  apply le_antisymm
  · apply Finset.sup'_le
    intro b _
    fin_cases b
    · exact le_max_left _ _
    · exact le_max_right _ _
  · apply max_le
    · exact Finset.le_sup' f (Finset.mem_univ 0)
    · exact Finset.le_sup' f (Finset.mem_univ 1)

/-- The scaling-vector field of one matrix-IPFP step. -/
theorem mipfpStep_A {X Y α : Type} [Fintype X] [Fintype Y] [Nonempty Y]
    [LinearOrderedField α] (K : X → Y → α) (n : X → α) (m : Y → α)
    (s : MIPFPState X Y α) :
    (mipfpStep K n m s).A = fun x => n x / ∑ y, K x y * s.B y := rfl

/-- The updated column-scaling field of one matrix-IPFP step. -/
theorem mipfpStep_B {X Y α : Type} [Fintype X] [Fintype Y] [Nonempty Y]
    [LinearOrderedField α] (K : X → Y → α) (n : X → α) (m : Y → α)
    (s : MIPFPState X Y α) :
    (mipfpStep K n m s).B = fun y =>
      m y / ∑ x, (n x / ∑ y', K x y' * s.B y') * K x y := rfl

/-- The residual field of one matrix-IPFP step: note the one-sidedness,
`abs` is applied to the ratio and 1 is subtracted outside. -/
theorem mipfpStep_error {X Y α : Type} [Fintype X] [Fintype Y] [Nonempty Y]
    [LinearOrderedField α] (K : X → Y → α) (n : X → α) (m : Y → α)
    (s : MIPFPState X Y α) :
    (mipfpStep K n m s).error = Finset.univ.sup' Finset.univ_nonempty
      (fun y => |(∑ x, (n x / ∑ y', K x y' * s.B y') * K x y) * s.B y / m y| - 1) :=
  rfl

/-- The iteration counter of one matrix-IPFP step. -/
theorem mipfpStep_ite {X Y α : Type} [Fintype X] [Fintype Y] [Nonempty Y]
    [LinearOrderedField α] (K : X → Y → α) (n : X → α) (m : Y → α)
    (s : MIPFPState X Y α) : (mipfpStep K n m s).ite = s.ite + 1 := rfl

/-- A matrix-IPFP step keeps the column scalings positive when the kernel and
both marginals are positive. -/
theorem mipfpStep_pos {X Y α : Type} [Fintype X] [Fintype Y] [Nonempty X]
    [Nonempty Y] [LinearOrderedField α] (K : X → Y → α) (n : X → α)
    (m : Y → α) (hK : ∀ x y, 0 < K x y) (hn : ∀ x, 0 < n x)
    (hm : ∀ y, 0 < m y) (s : MIPFPState X Y α) (hB : ∀ y, 0 < s.B y) :
    ∀ y, 0 < (mipfpStep K n m s).B y := by
  intro y
  rw [mipfpStep_B]
  apply div_pos (hm y)
  apply Finset.sum_pos _ Finset.univ_nonempty
  intro x _
  apply mul_pos _ (hK x y)
  apply div_pos (hn x)
  apply Finset.sum_pos _ Finset.univ_nonempty
  intro y' _
  exact mul_pos (hK x y') (hB y')

/-- The fuelled matrix-IPFP loop returns either its initial state or the
image of a positive-scaling state under one step. -/
theorem mipfpLoop_cases {X Y α : Type} [Fintype X] [Fintype Y] [Nonempty X]
    [Nonempty Y] [LinearOrderedField α] (K : X → Y → α) (n : X → α)
    (m : Y → α) (tol : α) (maxite : ℕ) (hK : ∀ x y, 0 < K x y)
    (hn : ∀ x, 0 < n x) (hm : ∀ y, 0 < m y) :
    ∀ (fuel : ℕ) (s : MIPFPState X Y α), (∀ y, 0 < s.B y) →
      mipfpLoop K n m tol maxite fuel s = s ∨
      ∃ s', (∀ y, 0 < s'.B y) ∧
        mipfpLoop K n m tol maxite fuel s = mipfpStep K n m s'
  | 0, s, _ => by
    rw [mipfpLoop]
    exact Or.inl rfl
  | fuel + 1, s, hB => by
    rw [mipfpLoop]
    by_cases hg : tol < s.error ∧ s.ite < maxite
    · rw [if_pos hg]
      rcases mipfpLoop_cases K n m tol maxite hK hn hm fuel (mipfpStep K n m s)
          (mipfpStep_pos K n m hK hn hm s hB) with h | ⟨s', hs', h⟩
      · exact Or.inr ⟨s, hB, h⟩
      · exact Or.inr ⟨s', hs', h⟩
    · rw [if_neg hg]
      exact Or.inl rfl

/-- After any matrix-IPFP step from a positive state, the coupling
`mu = K * A * B` has column sums exactly equal to `m`: the column scaling
`B = m / (K^T A)` is the last update applied. -/
theorem mipfpStep_colsum {X Y α : Type} [Fintype X] [Fintype Y] [Nonempty X]
    [Nonempty Y] [LinearOrderedField α] (K : X → Y → α) (n : X → α)
    (m : Y → α) (hK : ∀ x y, 0 < K x y) (hn : ∀ x, 0 < n x)
    (hm : ∀ y, 0 < m y) (s : MIPFPState X Y α) (hB : ∀ y, 0 < s.B y) :
    ∀ y, (∑ x, K x y * (mipfpStep K n m s).A x * (mipfpStep K n m s).B y) =
      m y := by
  intro y
  rw [mipfpStep_A, mipfpStep_B]
  have hKA : 0 < ∑ x, (n x / ∑ y', K x y' * s.B y') * K x y := by
    apply Finset.sum_pos _ Finset.univ_nonempty
    intro x _
    apply mul_pos _ (hK x y)
    apply div_pos (hn x)
    apply Finset.sum_pos _ Finset.univ_nonempty
    intro y' _
    exact mul_pos (hK x y') (hB y')
  calc (∑ x, K x y * (n x / ∑ y', K x y' * s.B y') *
        (m y / ∑ x', (n x' / ∑ y', K x' y' * s.B y') * K x' y))
      = (∑ x, (n x / ∑ y', K x y' * s.B y') * K x y) *
          (m y / ∑ x', (n x' / ∑ y', K x' y' * s.B y') * K x' y) := by
        rw [Finset.sum_mul]
        apply Finset.sum_congr rfl
        intro x _
        ring
    _ = m y := by
        rw [mul_comm, div_mul_cancel₀ _ (ne_of_gt hKA)]

/-- The row-marginal bound behind IPFP marginal consistency, stated over the
abstract quantities of one matrix-IPFP step (`A = n/(K B)`,
`KA = K^T A`, `B' = m/KA`, ratio `r = KA*B/m`): when the marginals are
positive and normalized and every ratio is at most `1 + tol`, each row sum of
the coupling `K * A * B'` is within `tol` of `n`, strictly. -/
theorem ipfp_row_core {X Y α : Type} [Fintype X] [Fintype Y] [Nonempty X]
    [Nonempty Y] [DecidableEq Y] [LinearOrderedField α] (K : X → Y → α) (n : X → α)
    (m : Y → α) (B : Y → α) (A : X → α) (KA B' r : Y → α)
    (hK : ∀ x y, 0 < K x y) (hn : ∀ x, 0 < n x) (hm : ∀ y, 0 < m y)
    (hN : (∑ x, n x) = 1) (hM : (∑ y, m y) = 1) (hB : ∀ y, 0 < B y)
    (hAdef : ∀ x, A x = n x / ∑ y, K x y * B y)
    (hKAdef : ∀ y, KA y = ∑ x, A x * K x y)
    (hBsdef : ∀ y, B' y = m y / KA y)
    (hrdef : ∀ y, r y = KA y * B y / m y)
    (tol : α) (htol : 0 < tol) (herr : ∀ y, r y ≤ 1 + tol) :
    ∀ x, |(∑ y, K x y * A x * B' y) - n x| < tol := by
  have hKB : ∀ x, 0 < ∑ y, K x y * B y := fun x =>
    Finset.sum_pos (fun y _ => mul_pos (hK x y) (hB y)) Finset.univ_nonempty
  have hApos : ∀ x, 0 < A x := fun x => by
    rw [hAdef]
    exact div_pos (hn x) (hKB x)
  have hKApos : ∀ y, 0 < KA y := fun y => by
    rw [hKAdef]
    exact Finset.sum_pos (fun x _ => mul_pos (hApos x) (hK x y)) Finset.univ_nonempty
  have hB'pos : ∀ y, 0 < B' y := fun y => by
    rw [hBsdef]
    exact div_pos (hm y) (hKApos y)
  have hμpos : ∀ x y, 0 < K x y * A x * B' y := fun x y =>
    mul_pos (mul_pos (hK x y) (hApos x)) (hB'pos y)
  have hABKB : ∀ x, A x * (∑ y, K x y * B y) = n x := fun x => by
    rw [hAdef]
    exact div_mul_cancel₀ _ (ne_of_gt (hKB x))
  have hmr : ∀ y, m y * r y = KA y * B y := fun y => by
    rw [hrdef, mul_comm]
    exact div_mul_cancel₀ _ (ne_of_gt (hm y))
  have hsum_mr : (∑ y, m y * r y) = 1 := by
    calc (∑ y, m y * r y) = ∑ y, KA y * B y :=
          Finset.sum_congr rfl (fun y _ => hmr y)
      _ = ∑ y, ∑ x, A x * K x y * B y := by
          apply Finset.sum_congr rfl
          intro y _
          rw [hKAdef, Finset.sum_mul]
      _ = ∑ x, ∑ y, A x * K x y * B y := Finset.sum_comm
      _ = ∑ x, A x * ∑ y, K x y * B y := by
          apply Finset.sum_congr rfl
          intro x _
          rw [Finset.mul_sum]
          apply Finset.sum_congr rfl
          intro y _
          ring
      _ = ∑ x, n x := Finset.sum_congr rfl (fun x _ => hABKB x)
      _ = 1 := hN
  have hB'r : ∀ y, B' y * r y = B y := fun y => by
    rw [hBsdef, hrdef]
    field_simp [ne_of_gt (hm y), ne_of_gt (hKApos y)]
    ring
  have hcol : ∀ y, (∑ x', K x' y * A x' * B' y) = m y := by
    intro y
    calc (∑ x', K x' y * A x' * B' y) = (∑ x', A x' * K x' y) * B' y := by
          rw [Finset.sum_mul]
          apply Finset.sum_congr rfl
          intro x' _
          ring
      _ = KA y * B' y := by rw [← hKAdef y]
      _ = m y := by rw [hBsdef, mul_comm, div_mul_cancel₀ _ (ne_of_gt (hKApos y))]
  have hμle : ∀ x' y, K x' y * A x' * B' y ≤ m y := fun x' y => by
    rw [← hcol y]
    exact Finset.single_le_sum (fun x'' _ => le_of_lt (hμpos x'' y))
      (Finset.mem_univ x')
  intro x
  have hrow : (∑ y, K x y * A x * B' y) - n x =
      ∑ y, K x y * A x * B' y * (1 - r y) := by
    have hnx : n x = ∑ y, K x y * A x * (B' y * r y) := by
      rw [← hABKB x, Finset.mul_sum]
      apply Finset.sum_congr rfl
      intro y _
      rw [hB'r y]
      ring
    calc (∑ y, K x y * A x * B' y) - n x
        = (∑ y, K x y * A x * B' y) - ∑ y, K x y * A x * (B' y * r y) := by
          rw [← hnx]
      _ = ∑ y, K x y * A x * B' y * (1 - r y) := by
          rw [← Finset.sum_sub_distrib]
          apply Finset.sum_congr rfl
          intro y _
          ring
  obtain ⟨y0, hy0⟩ : ∃ y0, r y0 ≤ 1 := by
    by_contra hno
    push_neg at hno
    have hgt : (∑ y, m y * 1) < ∑ y, m y * r y :=
      Finset.sum_lt_sum_of_nonempty Finset.univ_nonempty
        (fun y _ => mul_lt_mul_of_pos_left (hno y) (hm y))
    have h1 : (∑ y, m y * 1) = 1 := by
      simp only [mul_one]
      exact hM
    rw [h1, hsum_mr] at hgt
    exact absurd hgt (lt_irrefl 1)
  have hup : (∑ y, K x y * A x * B' y * (1 - r y)) < tol := by
    have hstep1 : ∀ y, K x y * A x * B' y * (1 - r y) ≤ m y * max 0 (1 - r y) := by
      intro y
      rcases le_total (r y) 1 with hy | hy
      · have h0 : (0:α) ≤ 1 - r y := by linarith
        rw [max_eq_right h0]
        exact mul_le_mul_of_nonneg_right (hμle x y) h0
      · have h0 : 1 - r y ≤ (0:α) := by linarith
        rw [max_eq_left h0, mul_zero]
        exact mul_nonpos_iff.mpr (Or.inl ⟨le_of_lt (hμpos x y), h0⟩)
    have hsum1 : (∑ y, K x y * A x * B' y * (1 - r y)) ≤
        ∑ y, m y * max 0 (1 - r y) := Finset.sum_le_sum (fun y _ => hstep1 y)
    have hid : ∀ t : α, max 0 (1 - t) = (1 - t) + max 0 (t - 1) := by
      intro t
      rcases le_total t 1 with h | h
      · rw [max_eq_right (by linarith : (0:α) ≤ 1 - t),
          max_eq_left (by linarith : t - 1 ≤ (0:α))]
        ring
      · rw [max_eq_left (by linarith : 1 - t ≤ (0:α)),
          max_eq_right (by linarith : (0:α) ≤ t - 1)]
        ring
    have hsum2 : (∑ y, m y * max 0 (1 - r y)) = ∑ y, m y * max 0 (r y - 1) := by
      calc (∑ y, m y * max 0 (1 - r y))
          = ∑ y, (m y * (1 - r y) + m y * max 0 (r y - 1)) := by
            apply Finset.sum_congr rfl
            intro y _
            rw [hid (r y)]
            ring
        _ = (∑ y, m y * (1 - r y)) + ∑ y, m y * max 0 (r y - 1) :=
            Finset.sum_add_distrib
        _ = ∑ y, m y * max 0 (r y - 1) := by
            have hz : (∑ y, m y * (1 - r y)) = 0 := by
              have he : (∑ y, m y * (1 - r y)) =
                  (∑ y, m y) - ∑ y, m y * r y := by
                rw [← Finset.sum_sub_distrib]
                apply Finset.sum_congr rfl
                intro y _
                ring
              rw [he, hM, hsum_mr]
              ring
            rw [hz, zero_add]
    have hsum3 : (∑ y, m y * max 0 (r y - 1)) < tol := by
      rw [← Finset.add_sum_erase _ _ (Finset.mem_univ y0)]
      have hy0term : m y0 * max 0 (r y0 - 1) = 0 := by
        rw [max_eq_left (by linarith : r y0 - 1 ≤ (0:α)), mul_zero]
      rw [hy0term, zero_add]
      have hle : (∑ y ∈ Finset.univ.erase y0, m y * max 0 (r y - 1)) ≤
          ∑ y ∈ Finset.univ.erase y0, m y * tol := by
        apply Finset.sum_le_sum
        intro y _
        apply mul_le_mul_of_nonneg_left _ (le_of_lt (hm y))
        apply max_le (le_of_lt htol)
        have := herr y
        linarith
      have heq : (∑ y ∈ Finset.univ.erase y0, m y * tol) = (1 - m y0) * tol := by
        rw [← Finset.sum_mul, Finset.sum_erase_eq_sub (Finset.mem_univ y0), hM]
      have hlt : (1 - m y0) * tol < 1 * tol := by
        apply mul_lt_mul_of_pos_right _ htol
        have := hm y0
        linarith
      calc (∑ y ∈ Finset.univ.erase y0, m y * max 0 (r y - 1))
          ≤ (1 - m y0) * tol := le_trans hle (le_of_eq heq)
        _ < 1 * tol := hlt
        _ = tol := one_mul tol
    calc (∑ y, K x y * A x * B' y * (1 - r y))
        ≤ ∑ y, m y * max 0 (1 - r y) := hsum1
      _ = ∑ y, m y * max 0 (r y - 1) := hsum2
      _ < tol := hsum3
  have hlow : n x - (∑ y, K x y * A x * B' y) < tol := by
    have h1 : n x - (∑ y, K x y * A x * B' y) =
        ∑ y, K x y * A x * B' y * (r y - 1) := by
      calc n x - (∑ y, K x y * A x * B' y)
          = -((∑ y, K x y * A x * B' y) - n x) := by ring
        _ = -(∑ y, K x y * A x * B' y * (1 - r y)) := by rw [hrow]
        _ = ∑ y, K x y * A x * B' y * (r y - 1) := by
            rw [← Finset.sum_neg_distrib]
            apply Finset.sum_congr rfl
            intro y _
            ring
    have h2 : (∑ y, K x y * A x * B' y * (r y - 1)) ≤
        ∑ y, K x y * A x * B' y * tol := by
      apply Finset.sum_le_sum
      intro y _
      apply mul_le_mul_of_nonneg_left _ (le_of_lt (hμpos x y))
      have := herr y
      linarith
    have h3 : (∑ y, K x y * A x * B' y * tol) =
        (∑ y, K x y * A x * B' y) * tol := (Finset.sum_mul _ _ _).symm
    have hRpos : 0 < ∑ y, K x y * A x * B' y :=
      Finset.sum_pos (fun y _ => hμpos x y) Finset.univ_nonempty
    have hnle : n x ≤ 1 := by
      rw [← hN]
      exact Finset.single_le_sum (fun x' _ => le_of_lt (hn x')) (Finset.mem_univ x)
    rcases le_or_lt (n x) (∑ y, K x y * A x * B' y) with hc | hc
    · linarith
    · have h5 : (∑ y, K x y * A x * B' y) * tol < n x * tol :=
        mul_lt_mul_of_pos_right hc htol
      have h6 : n x * tol ≤ 1 * tol :=
        mul_le_mul_of_nonneg_right hnle (le_of_lt htol)
      rw [one_mul] at h6
      linarith
  rw [abs_sub_lt_iff]
  constructor
  · rw [hrow]
    exact hup
  · exact hlow

/-- Row-marginal accuracy of one matrix-IPFP step whose one-sided residual is
at most `tol`, for positive normalized marginals. -/
theorem mipfpStep_rowsum {X Y α : Type} [Fintype X] [Fintype Y] [Nonempty X]
    [Nonempty Y] [DecidableEq Y] [LinearOrderedField α] (K : X → Y → α)
    (n : X → α) (m : Y → α) (hK : ∀ x y, 0 < K x y) (hn : ∀ x, 0 < n x)
    (hm : ∀ y, 0 < m y) (hN : (∑ x, n x) = 1) (hM : (∑ y, m y) = 1)
    (s : MIPFPState X Y α) (hB : ∀ y, 0 < s.B y) (tol : α) (htol : 0 < tol)
    (herr : (mipfpStep K n m s).error ≤ tol) :
    ∀ x, |(∑ y, K x y * (mipfpStep K n m s).A x * (mipfpStep K n m s).B y) -
      n x| < tol := by
  apply ipfp_row_core K n m s.B (mipfpStep K n m s).A
    (fun y => ∑ x, (mipfpStep K n m s).A x * K x y) (mipfpStep K n m s).B
    (fun y => (∑ x, (mipfpStep K n m s).A x * K x y) * s.B y / m y)
    hK hn hm hN hM hB (fun x => rfl) (fun y => rfl) (fun y => rfl)
    (fun y => rfl) tol htol
  intro y
  have h1 : |(∑ x, (n x / ∑ y', K x y' * s.B y') * K x y) * s.B y / m y| - 1 ≤
      (mipfpStep K n m s).error := by
    rw [mipfpStep_error]
    exact Finset.le_sup'
      (fun y => |(∑ x, (n x / ∑ y', K x y' * s.B y') * K x y) * s.B y / m y| - 1)
      (Finset.mem_univ y)
  have h2 : (∑ x, (mipfpStep K n m s).A x * K x y) * s.B y / m y ≤
      |(∑ x, (n x / ∑ y', K x y' * s.B y') * K x y) * s.B y / m y| :=
    le_abs_self _
  linarith

/-- The coupling output of `matrixIPFP`. -/
theorem matrixIPFP_mu {X Y : Type} [Fintype X] [Fintype Y] [Nonempty Y]
    (Phi : X → Y → ℝ) (sigma : ℝ) (n : X → ℝ) (m : Y → ℝ) (tol : ℝ)
    (maxite : ℕ) :
    (matrixIPFP Phi sigma n m tol maxite).mu = fun x y =>
      Real.exp (Phi x y / sigma) *
        (mipfpLoop (fun x y => Real.exp (Phi x y / sigma)) n m tol maxite
          (maxite + 1) ⟨fun _ => 0, fun _ => 1, tol + 1, 0⟩).A x *
        (mipfpLoop (fun x y => Real.exp (Phi x y / sigma)) n m tol maxite
          (maxite + 1) ⟨fun _ => 0, fun _ => 1, tol + 1, 0⟩).B y := rfl

/-- The final loop residual reported by `matrixIPFP`. -/
theorem matrixIPFP_error {X Y : Type} [Fintype X] [Fintype Y] [Nonempty Y]
    (Phi : X → Y → ℝ) (sigma : ℝ) (n : X → ℝ) (m : Y → ℝ) (tol : ℝ)
    (maxite : ℕ) :
    (matrixIPFP Phi sigma n m tol maxite).error =
      (mipfpLoop (fun x y => Real.exp (Phi x y / sigma)) n m tol maxite
        (maxite + 1) ⟨fun _ => 0, fun _ => 1, tol + 1, 0⟩).error := rfl

/-- The iteration count reported by `matrixIPFP`. -/
theorem matrixIPFP_ite {X Y : Type} [Fintype X] [Fintype Y] [Nonempty Y]
    (Phi : X → Y → ℝ) (sigma : ℝ) (n : X → ℝ) (m : Y → ℝ) (tol : ℝ)
    (maxite : ℕ) :
    (matrixIPFP Phi sigma n m tol maxite).ite =
      (mipfpLoop (fun x y => Real.exp (Phi x y / sigma)) n m tol maxite
        (maxite + 1) ⟨fun _ => 0, fun _ => 1, tol + 1, 0⟩).ite := rfl

/-- C1 amended: for every cost matrix `Phi`, positive marginals `n, m` that
are normalized (`sum n = sum m = 1`, as in the data model), `sigma`, and
positive tolerance, whenever `matrixIPFP` exits its loop with residual at
most `tol`, the returned coupling satisfies
`max |row_sums(mu) - n| < tol` and `max |col_sums(mu) - m| < tol`. -/
theorem C1_marginal_consistency {X Y : Type} [Fintype X] [Fintype Y]
    [Nonempty X] [Nonempty Y] [DecidableEq Y] (Phi : X → Y → ℝ) (sigma : ℝ)
    (n : X → ℝ) (m : Y → ℝ) (tol : ℝ) (maxite : ℕ)
    (hn : ∀ x, 0 < n x) (hm : ∀ y, 0 < m y) (hN : (∑ x, n x) = 1)
    (hM : (∑ y, m y) = 1) (htol : 0 < tol)
    (hexit : (matrixIPFP Phi sigma n m tol maxite).error ≤ tol) :
    (∀ x, |(∑ y, (matrixIPFP Phi sigma n m tol maxite).mu x y) - n x| < tol) ∧
    (∀ y, |(∑ x, (matrixIPFP Phi sigma n m tol maxite).mu x y) - m y| < tol) := by
  have hK : ∀ (x : X) (y : Y), 0 < Real.exp (Phi x y / sigma) := fun x y =>
    Real.exp_pos _
  rcases mipfpLoop_cases (fun x y => Real.exp (Phi x y / sigma)) n m tol maxite
      hK hn hm (maxite + 1) ⟨fun _ => 0, fun _ => 1, tol + 1, 0⟩
      (fun y => one_pos) with hcase | ⟨s', hs', hcase⟩
  · rw [matrixIPFP_error, hcase] at hexit
    have h0 : ((⟨fun _ => 0, fun _ => 1, tol + 1, 0⟩ :
        MIPFPState X Y ℝ)).error = tol + 1 := rfl
    rw [h0] at hexit
    linarith
  · constructor
    · intro x
      have h := mipfpStep_rowsum (fun x y => Real.exp (Phi x y / sigma)) n m
        hK hn hm hN hM s' hs' tol htol
        (by rw [matrixIPFP_error, hcase] at hexit; exact hexit) x
      rw [matrixIPFP_mu, hcase]
      exact h
    · intro y
      have h := mipfpStep_colsum (fun x y => Real.exp (Phi x y / sigma)) n m
        hK hn hm s' hs' y
      rw [matrixIPFP_mu, hcase]
      have hsum : (∑ x, Real.exp (Phi x y / sigma) *
          (mipfpStep (fun x y => Real.exp (Phi x y / sigma)) n m s').A x *
          (mipfpStep (fun x y => Real.exp (Phi x y / sigma)) n m s').B y) =
          m y := h
      rw [hsum, sub_self, abs_zero]
      exact htol

/-- C10: in exact arithmetic, whenever `matrixIPFP` returns after at least
one iteration - whether the tolerance was met or the cap was hit - the
returned coupling has column sums exactly equal to `m`, because the column
scaling `B = m / (K^T A)` is the last update applied before `mu = K*A*B` is
formed.  (Positive marginals, the data model's validity condition, keep
every intermediate denominator nonzero.) -/
theorem C10_column_sums_exact {X Y : Type} [Fintype X] [Fintype Y]
    [Nonempty X] [Nonempty Y] (Phi : X → Y → ℝ) (sigma : ℝ)
    (n : X → ℝ) (m : Y → ℝ) (tol : ℝ) (maxite : ℕ)
    (hn : ∀ x, 0 < n x) (hm : ∀ y, 0 < m y)
    (hite : 1 ≤ (matrixIPFP Phi sigma n m tol maxite).ite) :
    ∀ y, (∑ x, (matrixIPFP Phi sigma n m tol maxite).mu x y) = m y := by
  have hK : ∀ (x : X) (y : Y), 0 < Real.exp (Phi x y / sigma) := fun x y =>
    Real.exp_pos _
  rcases mipfpLoop_cases (fun x y => Real.exp (Phi x y / sigma)) n m tol maxite
      hK hn hm (maxite + 1) ⟨fun _ => 0, fun _ => 1, tol + 1, 0⟩
      (fun y => one_pos) with hcase | ⟨s', hs', hcase⟩
  · rw [matrixIPFP_ite, hcase] at hite
    have h0 : ((⟨fun _ => 0, fun _ => 1, tol + 1, 0⟩ :
        MIPFPState X Y ℝ)).ite = 0 := rfl
    rw [h0] at hite
    exact absurd hite (by norm_num)
  · intro y
    rw [matrixIPFP_mu, hcase]
    exact mipfpStep_colsum (fun x y => Real.exp (Phi x y / sigma)) n m
      hK hn hm s' hs' y

/-- The fuelled loop halts as soon as the while-guard fails. -/
theorem mipfpLoop_stop {X Y α : Type} [Fintype X] [Fintype Y] [Nonempty Y]
    [LinearOrderedField α] (K : X → Y → α) (n : X → α) (m : Y → α)
    (tol : α) (maxite fuel : ℕ) (s : MIPFPState X Y α)
    (h : ¬ (tol < s.error ∧ s.ite < maxite)) :
    mipfpLoop K n m tol maxite fuel s = s := by
  cases fuel with
  | zero => rw [mipfpLoop]
  | succ fuel => rw [mipfpLoop, if_neg h]

/-- The fuelled loop takes a step while the while-guard holds. -/
theorem mipfpLoop_go {X Y α : Type} [Fintype X] [Fintype Y] [Nonempty Y]
    [LinearOrderedField α] (K : X → Y → α) (n : X → α) (m : Y → α)
    (tol : α) (maxite fuel : ℕ) (s : MIPFPState X Y α)
    (h : tol < s.error ∧ s.ite < maxite) :
    mipfpLoop K n m tol maxite (fuel + 1) s =
      mipfpLoop K n m tol maxite fuel (mipfpStep K n m s) := by
  rw [mipfpLoop, if_pos h]

/-- The exponential kernel of `matrixIPFP` on a zero cost matrix with unit
regularization, over a single type on each side, is the all-ones kernel. -/
theorem expKernel_unit :
    (fun x y : Fin 1 => Real.exp ((fun (_ _ : Fin 1) => (0:ℝ)) x y / 1)) =
      fun _ _ => (1:ℝ) := by
  funext x y
  simp

/-- Concrete run of the matrix-IPFP loop on the unit instance
(`K = 1`, `n = m = (1)`, `tol = 1`, `maxite = 1`): exactly one iteration. -/
theorem mipfpLoop_unit_eval :
    mipfpLoop (fun _ _ : Fin 1 => (1:ℝ)) (fun _ => 1) (fun _ => 1) 1 1 (1 + 1)
      ⟨fun _ => 0, fun _ => 1, 1 + 1, 0⟩ =
    mipfpStep (fun _ _ : Fin 1 => (1:ℝ)) (fun _ => 1) (fun _ => 1)
      ⟨fun _ => 0, fun _ => 1, 1 + 1, 0⟩ := by
  rw [mipfpLoop_go]
  · apply mipfpLoop_stop
    rintro ⟨_, h2⟩
    rw [mipfpStep_ite] at h2
    have h0 : ((⟨fun _ => 0, fun _ => 1, 1 + 1, 0⟩ :
        MIPFPState (Fin 1) (Fin 1) ℝ)).ite = 0 := rfl
    rw [h0] at h2
    exact absurd h2 (by norm_num)
  · constructor
    · show (1:ℝ) < 1 + 1
      norm_num
    · show (0:ℕ) < 1
      norm_num

/-- The residual after one matrix-IPFP step on the unit instance is zero. -/
theorem mipfpStep_unit_error :
    (mipfpStep (fun _ _ : Fin 1 => (1:ℝ)) (fun _ => 1) (fun _ => 1)
      ⟨fun _ => 0, fun _ => 1, 1 + 1, 0⟩).error = 0 := by
  rw [mipfpStep_error, sup'_univ_fin1]
  norm_num [Fin.sum_univ_one]

/-- Witness for C1's amended theorem: the unit instance (`Phi = 0`,
`sigma = 1`, `n = m = (1)`, `tol = 1`, `maxite = 1`) exits by tolerance after
one iteration, and `C1_marginal_consistency` applies to it. -/
theorem C1_witness :
    ((∀ x : Fin 1, 0 < (fun _ => (1:ℝ)) x) ∧
      (∀ y : Fin 1, 0 < (fun _ => (1:ℝ)) y) ∧
      (∑ x : Fin 1, (fun _ => (1:ℝ)) x) = 1 ∧
      (∑ y : Fin 1, (fun _ => (1:ℝ)) y) = 1 ∧ (0:ℝ) < 1 ∧
      (matrixIPFP (fun _ _ : Fin 1 => (0:ℝ)) 1 (fun _ => 1) (fun _ => 1)
        1 1).error ≤ 1) ∧
    ((∀ x, |(∑ y, (matrixIPFP (fun _ _ : Fin 1 => (0:ℝ)) 1 (fun _ => 1)
        (fun _ => 1) 1 1).mu x y) - (fun _ => (1:ℝ)) x| < 1) ∧
      (∀ y, |(∑ x, (matrixIPFP (fun _ _ : Fin 1 => (0:ℝ)) 1 (fun _ => 1)
        (fun _ => 1) 1 1).mu x y) - (fun _ => (1:ℝ)) y| < 1)) := by
  have hexit : (matrixIPFP (fun _ _ : Fin 1 => (0:ℝ)) 1 (fun _ => 1)
      (fun _ => 1) 1 1).error ≤ 1 := by
    rw [matrixIPFP_error, expKernel_unit, mipfpLoop_unit_eval,
      mipfpStep_unit_error]
    norm_num
  refine ⟨⟨fun _ => one_pos, fun _ => one_pos, Fin.sum_univ_one _,
    Fin.sum_univ_one _, one_pos, hexit⟩, ?_⟩
  exact C1_marginal_consistency (fun _ _ => 0) 1 (fun _ => 1) (fun _ => 1) 1 1
    (fun _ => one_pos) (fun _ => one_pos) (Fin.sum_univ_one _)
    (Fin.sum_univ_one _) one_pos hexit

/-- Witness for C10: the same unit instance runs exactly one iteration, and
`C10_column_sums_exact` yields exact column sums there. -/
theorem C10_witness :
    ((∀ x : Fin 1, 0 < (fun _ => (1:ℝ)) x) ∧
      (∀ y : Fin 1, 0 < (fun _ => (1:ℝ)) y) ∧
      1 ≤ (matrixIPFP (fun _ _ : Fin 1 => (0:ℝ)) 1 (fun _ => 1) (fun _ => 1)
        1 1).ite) ∧
    (∀ y, (∑ x, (matrixIPFP (fun _ _ : Fin 1 => (0:ℝ)) 1 (fun _ => 1)
      (fun _ => 1) 1 1).mu x y) = (fun _ => (1:ℝ)) y) := by
  have hite : 1 ≤ (matrixIPFP (fun _ _ : Fin 1 => (0:ℝ)) 1 (fun _ => 1)
      (fun _ => 1) 1 1).ite := by
    rw [matrixIPFP_ite, expKernel_unit, mipfpLoop_unit_eval, mipfpStep_ite]
  exact ⟨⟨fun _ => one_pos, fun _ => one_pos, hite⟩,
    C10_column_sums_exact (fun _ _ => 0) 1 (fun _ => 1) (fun _ => 1) 1 1
      (fun _ => one_pos) (fun _ => one_pos) hite⟩

/-- C1 counterexample: with `Phi = 0`, `sigma = 1` and the positive but
unnormalized marginals `n = (1)`, `m = (2)`, the loop exits by tolerance
(`tol = 1/2`, residual `-1/2`, one iteration, far from the cap 5), yet the
returned coupling is `mu = (2)`, whose row sum misses `n = 1` by `1 >= tol`:
the claim fails without the data model's normalization `sum n = sum m = 1`
because the residual `(abs(K^T A * B / m) - 1).max()` is one-sided. -/
theorem C1_counterexample :
    (matrixIPFP (fun _ _ : Fin 1 => (0:ℝ)) 1 (fun _ => 1) (fun _ => 2)
      (1/2) 5).error ≤ 1/2 ∧
    (matrixIPFP (fun _ _ : Fin 1 => (0:ℝ)) 1 (fun _ => 1) (fun _ => 2)
      (1/2) 5).ite < 5 ∧
    ¬ (∀ x, |(∑ y, (matrixIPFP (fun _ _ : Fin 1 => (0:ℝ)) 1 (fun _ => 1)
      (fun _ => 2) (1/2) 5).mu x y) - (fun _ => (1:ℝ)) x| < 1/2) := by
  have hloop : mipfpLoop (fun _ _ : Fin 1 => (1:ℝ)) (fun _ => 1) (fun _ => 2)
      (1/2) 5 (5 + 1) ⟨fun _ => 0, fun _ => 1, 1/2 + 1, 0⟩ =
      mipfpStep (fun _ _ : Fin 1 => (1:ℝ)) (fun _ => 1) (fun _ => 2)
        ⟨fun _ => 0, fun _ => 1, 1/2 + 1, 0⟩ := by
    rw [mipfpLoop_go]
    · apply mipfpLoop_stop
      rintro ⟨h1, _⟩
      rw [mipfpStep_error, sup'_univ_fin1] at h1
      norm_num [Fin.sum_univ_one] at h1
      rw [abs_of_pos (by norm_num : (0:ℝ) < 1/2)] at h1
      linarith
    · constructor
      · show (1:ℝ)/2 < 1/2 + 1
        norm_num
      · show (0:ℕ) < 5
        norm_num
  refine ⟨?_, ?_, ?_⟩
  · rw [matrixIPFP_error, expKernel_unit, hloop, mipfpStep_error,
      sup'_univ_fin1]
    norm_num [Fin.sum_univ_one]
    rw [abs_of_pos (by norm_num : (0:ℝ) < 1/2)]
    norm_num
  · rw [matrixIPFP_ite, expKernel_unit, hloop, mipfpStep_ite]
    norm_num
  · intro hall
    have h := hall 0
    rw [matrixIPFP_mu, expKernel_unit, hloop] at h
    rw [Fin.sum_univ_one, mipfpStep_A, mipfpStep_B] at h
    norm_num [Fin.sum_univ_one] at h

/-- The potential update of one log-domain IPFP step. -/
theorem lipfpStep_u {X Y : Type} [Fintype X] [Fintype Y] [Nonempty Y]
    (Phi : X → Y → ℝ) (sigma : ℝ) (n : X → ℝ) (m : Y → ℝ)
    (s : LIPFPState X Y) :
    (lipfpStep Phi sigma n m s).u = fun x =>
      -sigma * Real.log (n x) +
        sigma * Real.log (∑ y, Real.exp ((Phi x y - s.v y) / sigma)) := rfl

/-- The column-potential update of one log-domain IPFP step, in terms of the
freshly computed `u`. -/
theorem lipfpStep_v {X Y : Type} [Fintype X] [Fintype Y] [Nonempty Y]
    (Phi : X → Y → ℝ) (sigma : ℝ) (n : X → ℝ) (m : Y → ℝ)
    (s : LIPFPState X Y) :
    (lipfpStep Phi sigma n m s).v = fun y =>
      -sigma * Real.log (m y) + sigma * Real.log
        (∑ x, Real.exp ((Phi x y - (lipfpStep Phi sigma n m s).u x) / sigma)) :=
  rfl

/-- The residual of one log-domain IPFP step: the subtraction of 1 happens
inside the absolute value, unlike the matrix variant. -/
theorem lipfpStep_error {X Y : Type} [Fintype X] [Fintype Y] [Nonempty Y]
    (Phi : X → Y → ℝ) (sigma : ℝ) (n : X → ℝ) (m : Y → ℝ)
    (s : LIPFPState X Y) :
    (lipfpStep Phi sigma n m s).error = Finset.univ.sup' Finset.univ_nonempty
      (fun y => |(∑ x, Real.exp ((Phi x y - (lipfpStep Phi sigma n m s).u x) / sigma)) *
        Real.exp (-s.v y / sigma) / m y - 1|) := rfl

/-- The iteration counter of one log-domain IPFP step. -/
theorem lipfpStep_ite {X Y : Type} [Fintype X] [Fintype Y] [Nonempty Y]
    (Phi : X → Y → ℝ) (sigma : ℝ) (n : X → ℝ) (m : Y → ℝ)
    (s : LIPFPState X Y) : (lipfpStep Phi sigma n m s).ite = s.ite + 1 := rfl

/-- The fuelled log-domain loop halts as soon as the while-guard fails. -/
theorem lipfpLoop_stop {X Y : Type} [Fintype X] [Fintype Y] [Nonempty Y]
    (Phi : X → Y → ℝ) (sigma : ℝ) (n : X → ℝ) (m : Y → ℝ) (tol : ℝ)
    (maxite fuel : ℕ) (s : LIPFPState X Y)
    (h : ¬ (tol < s.error ∧ s.ite < maxite)) :
    lipfpLoop Phi sigma n m tol maxite fuel s = s := by
  cases fuel with
  | zero => rw [lipfpLoop]
  | succ fuel => rw [lipfpLoop, if_neg h]

/-- The fuelled log-domain loop takes a step while the while-guard holds. -/
theorem lipfpLoop_go {X Y : Type} [Fintype X] [Fintype Y] [Nonempty Y]
    (Phi : X → Y → ℝ) (sigma : ℝ) (n : X → ℝ) (m : Y → ℝ) (tol : ℝ)
    (maxite fuel : ℕ) (s : LIPFPState X Y)
    (h : tol < s.error ∧ s.ite < maxite) :
    lipfpLoop Phi sigma n m tol maxite (fuel + 1) s =
      lipfpLoop Phi sigma n m tol maxite fuel (lipfpStep Phi sigma n m s) := by
  rw [lipfpLoop, if_pos h]

/-- The iteration count reported by `logdomainIPFP`. -/
theorem logdomainIPFP_ite {X Y : Type} [Fintype X] [Fintype Y] [Nonempty Y]
    (Phi : X → Y → ℝ) (sigma : ℝ) (n : X → ℝ) (m : Y → ℝ) (tol : ℝ)
    (maxite : ℕ) :
    (logdomainIPFP Phi sigma n m tol maxite).ite =
      (lipfpLoop Phi sigma n m tol maxite (maxite + 1)
        ⟨fun _ => 0, fun _ => 0, tol + 1, 0⟩).ite := rfl

/-- C3 amended: in exact real arithmetic the per-iteration update maps of
`matrixIPFP` and `logdomainIPFP` coincide under the correspondence
`u = -sigma*log A`, `v = -sigma*log B`: one log-domain step from
`v = -sigma*log B` produces exactly `u = -sigma*log A_next` and
`v = -sigma*log B_next` of the matrix step.  (The residuals differ - the
matrix loop computes `max(|r|) - 1`, the log loop `max|r - 1|` - so the two
loops may exit after different iteration counts; see the counterexample.) -/
theorem C3_update_equivalence {X Y : Type} [Fintype X] [Fintype Y]
    [Nonempty X] [Nonempty Y] (Phi : X → Y → ℝ) (sigma : ℝ) (n : X → ℝ)
    (m : Y → ℝ) (hsig : 0 < sigma) (hn : ∀ x, 0 < n x) (hm : ∀ y, 0 < m y)
    (s : MIPFPState X Y ℝ) (l : LIPFPState X Y) (hB : ∀ y, 0 < s.B y)
    (hv : l.v = fun y => -sigma * Real.log (s.B y)) :
    ((lipfpStep Phi sigma n m l).u = fun x => -sigma * Real.log
      ((mipfpStep (fun x y => Real.exp (Phi x y / sigma)) n m s).A x)) ∧
    ((lipfpStep Phi sigma n m l).v = fun y => -sigma * Real.log
      ((mipfpStep (fun x y => Real.exp (Phi x y / sigma)) n m s).B y)) := by
  have hsigne : sigma ≠ 0 := ne_of_gt hsig
  have hexpv : ∀ (x : X) (y : Y), Real.exp ((Phi x y - l.v y) / sigma) =
      Real.exp (Phi x y / sigma) * s.B y := by
    intro x y
    rw [hv]
    have harg : (Phi x y - (fun y => -sigma * Real.log (s.B y)) y) / sigma =
        Phi x y / sigma + Real.log (s.B y) := by
      field_simp
      ring
    rw [harg, Real.exp_add, Real.exp_log (hB y)]
  have hKB : ∀ x, (∑ y, Real.exp ((Phi x y - l.v y) / sigma)) =
      ∑ y, Real.exp (Phi x y / sigma) * s.B y :=
    fun x => Finset.sum_congr rfl (fun y _ => hexpv x y)
  have hKBpos : ∀ x, 0 < ∑ y, Real.exp (Phi x y / sigma) * s.B y := fun x =>
    Finset.sum_pos (fun y _ => mul_pos (Real.exp_pos _) (hB y))
      Finset.univ_nonempty
  have hu : (lipfpStep Phi sigma n m l).u = fun x => -sigma * Real.log
      ((mipfpStep (fun x y => Real.exp (Phi x y / sigma)) n m s).A x) := by
    rw [lipfpStep_u]
    funext x
    rw [hKB x, mipfpStep_A]
    rw [Real.log_div (ne_of_gt (hn x)) (ne_of_gt (hKBpos x))]
    ring
  refine ⟨hu, ?_⟩
  have hApos : ∀ x, 0 <
      (mipfpStep (fun x y => Real.exp (Phi x y / sigma)) n m s).A x := by
    intro x
    rw [mipfpStep_A]
    exact div_pos (hn x) (hKBpos x)
  have hexpu : ∀ (x : X) (y : Y),
      Real.exp ((Phi x y - (lipfpStep Phi sigma n m l).u x) / sigma) =
      Real.exp (Phi x y / sigma) *
        (mipfpStep (fun x y => Real.exp (Phi x y / sigma)) n m s).A x := by
    intro x y
    rw [hu]
    have harg : (Phi x y - (fun x => -sigma * Real.log
        ((mipfpStep (fun x y => Real.exp (Phi x y / sigma)) n m s).A x)) x) /
        sigma = Phi x y / sigma + Real.log
          ((mipfpStep (fun x y => Real.exp (Phi x y / sigma)) n m s).A x) := by
      field_simp
      ring
    rw [harg, Real.exp_add, Real.exp_log (hApos x)]
  rw [lipfpStep_v]
  funext y
  have hKA : (∑ x, Real.exp ((Phi x y - (lipfpStep Phi sigma n m l).u x) / sigma)) =
      ∑ x, Real.exp (Phi x y / sigma) *
        (mipfpStep (fun x y => Real.exp (Phi x y / sigma)) n m s).A x :=
    Finset.sum_congr rfl (fun x _ => hexpu x y)
  have hKApos' : 0 < ∑ x, Real.exp (Phi x y / sigma) *
      (mipfpStep (fun x y => Real.exp (Phi x y / sigma)) n m s).A x :=
    Finset.sum_pos (fun x _ => mul_pos (Real.exp_pos _) (hApos x))
      Finset.univ_nonempty
  rw [hKA, mipfpStep_B]
  simp only []
  have hfold : (∑ x, Real.exp (Phi x y / sigma) *
      (mipfpStep (fun x y => Real.exp (Phi x y / sigma)) n m s).A x) =
      ∑ x, (n x / ∑ y', Real.exp (Phi x y' / sigma) * s.B y') *
        Real.exp (Phi x y / sigma) := by
    apply Finset.sum_congr rfl
    intro x _
    rw [mipfpStep_A]
    ring
  rw [← hfold]
  rw [Real.log_div (ne_of_gt (hm y)) (ne_of_gt hKApos')]
  ring

/-- Witness for C3's amended theorem: on the unit instance, one log-domain
step from `v = -log B` with `B = (1)` reproduces the matrix step's scalings
under the logarithmic correspondence. -/
theorem C3_witness :
    (((0:ℝ) < 1 ∧ (∀ x : Fin 1, 0 < (fun _ => (1:ℝ)) x) ∧
      (∀ y : Fin 1, 0 < (fun _ => (1:ℝ)) y) ∧
      (∀ y, 0 < (⟨fun _ => 0, fun _ => 1, 0, 0⟩ :
        MIPFPState (Fin 1) (Fin 1) ℝ).B y) ∧
      ((⟨fun _ => 0, fun _ => -1 * Real.log 1, 0, 0⟩ :
        LIPFPState (Fin 1) (Fin 1)).v = fun y => -1 * Real.log
          ((⟨fun _ => 0, fun _ => 1, 0, 0⟩ :
            MIPFPState (Fin 1) (Fin 1) ℝ).B y))) ∧
    (((lipfpStep (fun _ _ => 0) 1 (fun _ => 1) (fun _ => 1)
        (⟨fun _ => 0, fun _ => -1 * Real.log 1, 0, 0⟩ :
          LIPFPState (Fin 1) (Fin 1))).u = fun x =>
          -1 * Real.log ((mipfpStep
            (fun x y => Real.exp ((fun (_ _ : Fin 1) => (0:ℝ)) x y / 1))
            (fun _ => 1) (fun _ => 1)
            (⟨fun _ => 0, fun _ => 1, 0, 0⟩ :
              MIPFPState (Fin 1) (Fin 1) ℝ)).A x)) ∧
      ((lipfpStep (fun _ _ => 0) 1 (fun _ => 1) (fun _ => 1)
        (⟨fun _ => 0, fun _ => -1 * Real.log 1, 0, 0⟩ :
          LIPFPState (Fin 1) (Fin 1))).v = fun y =>
          -1 * Real.log ((mipfpStep
            (fun x y => Real.exp ((fun (_ _ : Fin 1) => (0:ℝ)) x y / 1))
            (fun _ => 1) (fun _ => 1)
            (⟨fun _ => 0, fun _ => 1, 0, 0⟩ :
              MIPFPState (Fin 1) (Fin 1) ℝ)).B y)))) := by
  have hB : ∀ y, 0 < (⟨fun _ => 0, fun _ => 1, 0, 0⟩ :
      MIPFPState (Fin 1) (Fin 1) ℝ).B y := fun _ => one_pos
  have hv : (⟨fun _ => 0, fun _ => -1 * Real.log 1, 0, 0⟩ :
      LIPFPState (Fin 1) (Fin 1)).v = fun y => -1 * Real.log
        ((⟨fun _ => 0, fun _ => 1, 0, 0⟩ :
          MIPFPState (Fin 1) (Fin 1) ℝ).B y) := rfl
  exact ⟨⟨one_pos, fun _ => one_pos, fun _ => one_pos, hB, hv⟩,
    C3_update_equivalence (fun _ _ => 0) 1 (fun _ => 1) (fun _ => 1) one_pos
      (fun _ => one_pos) (fun _ => one_pos)
      ⟨fun _ => 0, fun _ => 1, 0, 0⟩
      ⟨fun _ => 0, fun _ => -1 * Real.log 1, 0, 0⟩ hB hv⟩

/-- C3 counterexample: on `Phi = 0`, `sigma = 1`, `n = (1,1)`, `m = (1,2)`,
`tol = 1/8`, `maxite = 2`, the matrix loop exits after one iteration (its
one-sided residual `max(|r|) - 1` is 0 there) while the log-domain loop's
two-sided residual `max|r - 1|` is `1/2 > tol`, so it runs a second
iteration: the two implementations do not exit after the same number of
iterations, refuting the identical-runs claim. -/
theorem C3_counterexample :
    (matrixIPFP (fun _ _ : Fin 2 => (0:ℝ)) 1 (fun _ => 1) ![1, 2]
      (1/8) 2).ite = 1 ∧
    (logdomainIPFP (fun _ _ : Fin 2 => (0:ℝ)) 1 (fun _ => 1) ![1, 2]
      (1/8) 2).ite = 2 := by
  have hK2 : (fun x y : Fin 2 => Real.exp ((fun (_ _ : Fin 2) => (0:ℝ)) x y / 1)) =
      fun _ _ => (1:ℝ) := by
    funext x y
    simp
  constructor
  · have herrM : (mipfpStep (fun _ _ : Fin 2 => (1:ℝ)) (fun _ => 1) ![1, 2]
        ⟨fun _ => 0, fun _ => 1, 1/8 + 1, 0⟩).error ≤ 1/8 := by
      rw [mipfpStep_error, sup'_univ_fin2]
      apply max_le
      · norm_num [Fin.sum_univ_two]
      · norm_num [Fin.sum_univ_two]
        rw [abs_of_pos (by norm_num : (0:ℝ) < 1/2)]
        norm_num
    have hloopM : mipfpLoop (fun _ _ : Fin 2 => (1:ℝ)) (fun _ => 1) ![1, 2]
        (1/8) 2 (2 + 1) ⟨fun _ => 0, fun _ => 1, 1/8 + 1, 0⟩ =
        mipfpStep (fun _ _ : Fin 2 => (1:ℝ)) (fun _ => 1) ![1, 2]
          ⟨fun _ => 0, fun _ => 1, 1/8 + 1, 0⟩ := by
      rw [mipfpLoop_go]
      · apply mipfpLoop_stop
        rintro ⟨h1, _⟩
        exact absurd h1 (not_lt.mpr herrM)
      · constructor
        · show (1:ℝ)/8 < 1/8 + 1
          norm_num
        · show (0:ℕ) < 2
          norm_num
    rw [matrixIPFP_ite, hK2, hloopM, mipfpStep_ite]
  · have hu1 : (lipfpStep (fun _ _ : Fin 2 => (0:ℝ)) 1 (fun _ => 1) ![1, 2]
        ⟨fun _ => 0, fun _ => 0, 1/8 + 1, 0⟩).u = fun _ => Real.log 2 := by
      rw [lipfpStep_u]
      funext x
      norm_num [Fin.sum_univ_two]
    have hhalf2 : Real.exp (-Real.log 2) = 1/2 := by
      rw [Real.exp_neg, Real.exp_log (by norm_num : (0:ℝ) < 2)]
      norm_num
    have herrL : (lipfpStep (fun _ _ : Fin 2 => (0:ℝ)) 1 (fun _ => 1) ![1, 2]
        ⟨fun _ => 0, fun _ => 0, 1/8 + 1, 0⟩).error = 1/2 := by
      rw [lipfpStep_error, sup'_univ_fin2, hu1]
      norm_num [Fin.sum_univ_two]
      rw [hhalf2]
      have h1 : |(2:ℝ) * (1/2) - 1| = 0 := by norm_num
      have h2 : |(1:ℝ)/2 - 1| = 1/2 := by
        rw [abs_of_nonpos (by norm_num : (1:ℝ)/2 - 1 ≤ 0)]
        norm_num
      rw [h1, h2, sup_eq_right.mpr (by norm_num : (0:ℝ) ≤ 1/2)]
    have hstep2 : lipfpLoop (fun _ _ : Fin 2 => (0:ℝ)) 1 (fun _ => 1) ![1, 2]
        (1/8) 2 (1 + 1) (lipfpStep (fun _ _ : Fin 2 => (0:ℝ)) 1 (fun _ => 1)
          ![1, 2] ⟨fun _ => 0, fun _ => 0, 1/8 + 1, 0⟩) =
        lipfpStep (fun _ _ : Fin 2 => (0:ℝ)) 1 (fun _ => 1) ![1, 2]
          (lipfpStep (fun _ _ : Fin 2 => (0:ℝ)) 1 (fun _ => 1) ![1, 2]
            ⟨fun _ => 0, fun _ => 0, 1/8 + 1, 0⟩) := by
      rw [lipfpLoop_go]
      · apply lipfpLoop_stop
        rintro ⟨_, h2⟩
        rw [lipfpStep_ite, lipfpStep_ite] at h2
        have h0 : ((⟨fun _ => 0, fun _ => 0, 1/8 + 1, 0⟩ :
            LIPFPState (Fin 2) (Fin 2))).ite = 0 := rfl
        rw [h0] at h2
        exact absurd h2 (by norm_num)
      · constructor
        · rw [herrL]
          norm_num
        · rw [lipfpStep_ite]
          have h0 : ((⟨fun _ => 0, fun _ => 0, 1/8 + 1, 0⟩ :
              LIPFPState (Fin 2) (Fin 2))).ite = 0 := rfl
          rw [h0]
          norm_num
    have hloopL : lipfpLoop (fun _ _ : Fin 2 => (0:ℝ)) 1 (fun _ => 1) ![1, 2]
        (1/8) 2 (2 + 1) ⟨fun _ => 0, fun _ => 0, 1/8 + 1, 0⟩ =
        lipfpStep (fun _ _ : Fin 2 => (0:ℝ)) 1 (fun _ => 1) ![1, 2]
          (lipfpStep (fun _ _ : Fin 2 => (0:ℝ)) 1 (fun _ => 1) ![1, 2]
            ⟨fun _ => 0, fun _ => 0, 1/8 + 1, 0⟩) := by
      rw [lipfpLoop_go]
      · exact hstep2
      · constructor
        · show (1:ℝ)/8 < 1/8 + 1
          norm_num
        · show (0:ℕ) < 2
          norm_num
    rw [logdomainIPFP_ite, hloopL, lipfpStep_ite, lipfpStep_ite]

/-- The row-potential `u` of `logdomainIPFP_with_LSE_trick` dominates
`Phi - v` up to `sigma*log n`: the key bound behind the sign of the
residual-line exponent. -/
theorem lseUstar_le {X Y : Type} [Fintype X] [Fintype Y] [Nonempty X]
    [Nonempty Y] (Phi : X → Y → ℝ) (sigma : ℝ) (n : X → ℝ)
    (hsig : 0 < sigma) (hn : ∀ x, 0 < n x ∧ n x ≤ 1) (v : Y → ℝ) (y : Y) :
    lseUstar Phi sigma n v y ≤ v y := by
  apply Finset.sup'_le
  intro x _
  have hsum : Real.exp (lseArgU Phi sigma v x y) ≤
      ∑ y2, Real.exp (lseArgU Phi sigma v x y2) :=
    Finset.single_le_sum (fun y2 _ => (Real.exp_pos _).le) (Finset.mem_univ y)
  have hlog : (Phi x y - lseVstar Phi v x - v y) / sigma ≤
      Real.log (∑ y2, Real.exp (lseArgU Phi sigma v x y2)) := by
    have h1 : (Phi x y - lseVstar Phi v x - v y) / sigma =
        Real.log (Real.exp (lseArgU Phi sigma v x y)) := by
      rw [Real.log_exp]
      rfl
    rw [h1]
    exact Real.log_le_log (Real.exp_pos _) hsum
  have h2 : Phi x y - lseVstar Phi v x - v y ≤
      Real.log (∑ y2, Real.exp (lseArgU Phi sigma v x y2)) * sigma :=
    (div_le_iff₀ hsig).mp hlog
  have hlogn : sigma * Real.log (n x) ≤ 0 :=
    mul_nonpos_iff.mpr (Or.inl ⟨hsig.le,
      Real.log_nonpos (hn x).1.le (hn x).2⟩)
  rw [mul_comm] at h2
  unfold lseU
  linarith

/-- C8, amended. The spec claims every argument passed to `np.exp` inside
the `logdomainIPFP_with_LSE_trick` loop is `≤ 0` unconditionally. The two
log-sum-exp arguments `(Phi_x_y - vstar_x - v_y)/sigma` and
`(Phi_x_y - u_x - ustar_y)/sigma` are indeed always `≤ 0` (for `sigma > 0`),
but the residual line also exponentiates `(ustar_y - v_y)/sigma`, which can
be positive (see the counterexample). Amended: if moreover every row
marginal satisfies `0 < n_x ≤ 1`, then all three exponential arguments of
the loop body are `≤ 0` at every potential vector `v`, hence at every
iteration. -/
theorem C8_no_overflow {X Y : Type} [Fintype X] [Fintype Y] [Nonempty X]
    [Nonempty Y] (Phi : X → Y → ℝ) (sigma : ℝ) (n : X → ℝ)
    (hsig : 0 < sigma) (hn : ∀ x, 0 < n x ∧ n x ≤ 1) :
    ∀ (v : Y → ℝ) (x : X) (y : Y),
      lseArgU Phi sigma v x y ≤ 0 ∧
      lseArgV Phi sigma n v x y ≤ 0 ∧
      lseArgErr Phi sigma n v y ≤ 0 := by
  intro v x y
  refine ⟨?_, ?_, ?_⟩
  · apply div_nonpos_of_nonpos_of_nonneg _ hsig.le
    have h1 : Phi x y - v y ≤ lseVstar Phi v x :=
      Finset.le_sup' (fun y2 => Phi x y2 - v y2) (Finset.mem_univ y)
    linarith
  · apply div_nonpos_of_nonpos_of_nonneg _ hsig.le
    have h1 : Phi x y - lseU Phi sigma n v x ≤ lseUstar Phi sigma n v y :=
      Finset.le_sup' (fun x2 => Phi x2 y - lseU Phi sigma n v x2)
        (Finset.mem_univ x)
    linarith
  · apply div_nonpos_of_nonpos_of_nonneg _ hsig.le
    have h1 : lseUstar Phi sigma n v y ≤ v y :=
      lseUstar_le Phi sigma n hsig hn v y
    linarith

/-- Witness for C8's amended theorem on a concrete admissible instance. -/
theorem C8_witness :
    (((0:ℝ) < 1 ∧ (∀ x : Fin 1, 0 < (fun _ => (1:ℝ)) x ∧
        (fun _ => (1:ℝ)) x ≤ 1)) ∧
      (lseArgU (fun _ _ : Fin 1 => (0:ℝ)) 1 (lseV0 (Fin 1)) 0 0 ≤ 0 ∧
        lseArgV (fun _ _ : Fin 1 => (0:ℝ)) 1 (fun _ => 1)
          (lseV0 (Fin 1)) 0 0 ≤ 0 ∧
        lseArgErr (fun _ _ : Fin 1 => (0:ℝ)) 1 (fun _ => 1)
          (lseV0 (Fin 1)) 0 ≤ 0)) :=
  ⟨⟨one_pos, fun _ => ⟨one_pos, le_refl 1⟩⟩,
    C8_no_overflow (fun _ _ => 0) 1 (fun _ => 1) one_pos
      (fun _ => ⟨one_pos, le_refl 1⟩) (lseV0 (Fin 1)) 0 0⟩

/-- C8 counterexample: with `Phi = 0`, `sigma = 1`, `n = (2)` and the
initial `v = 0`, the residual-line exponent `(ustar_y - v_y)/sigma` of the
first iteration equals `log 2 > 0`: an argument of `np.exp` in the loop is
strictly positive, refuting the unconditional claim. -/
theorem C8_counterexample :
    0 < lseArgErr (fun _ _ : Fin 1 => (0:ℝ)) 1 (fun _ => 2)
      (lseV0 (Fin 1)) 0 := by
  have hvstar : lseVstar (fun _ _ : Fin 1 => (0:ℝ)) (lseV0 (Fin 1)) 0 = 0 := by
    unfold lseVstar lseV0
    rw [sup'_univ_fin1]
    norm_num
  have hU : lseU (fun _ _ : Fin 1 => (0:ℝ)) 1 (fun _ => 2)
      (lseV0 (Fin 1)) 0 = -Real.log 2 := by
    unfold lseU lseArgU
    rw [hvstar, Fin.sum_univ_one]
    norm_num [lseV0]
  have hustar : lseUstar (fun _ _ : Fin 1 => (0:ℝ)) 1 (fun _ => 2)
      (lseV0 (Fin 1)) 0 = Real.log 2 := by
    unfold lseUstar
    rw [sup'_univ_fin1, hU]
    norm_num
  unfold lseArgErr
  rw [hustar]
  have hv0 : lseV0 (Fin 1) 0 = 0 := rfl
  rw [hv0]
  norm_num
  exact Real.log_pos (by norm_num)

end Mec
